import Mathlib

/-
  Verification development for the document-fmt documentation/schema
  cross-checking tool (markdown field extraction, property trees, and the
  S006 bidirectional validator).

  The Go sources are shallowly embedded: strings are `String`/`List Char`
  (Go byte offsets coincide with char offsets exactly on inputs whose
  `strings.ToLower` image is byte-length preserving, in particular on all
  ASCII inputs; where the byte/char distinction is itself the behaviour
  under study — the lowered-offset slicing of `extractPossibleValues` —
  a byte-accurate model of UTF-8 lengths and Go's rune lowering is used),
  Go `regexp` matching is embedded by a backtracking matcher with
  Go's leftmost-first submatch semantics, `nil` pointers/slices become
  `Option`, and Go maps with insertion-ordered unique keys become
  association lists.
-/

set_option maxRecDepth 4000

namespace DocFmt

/-! ## Quoting characters, named via their code points -/

/-- The backtick character. -/
def btC : Char := Char.ofNat 96

/-- The single-quote character. -/
def sqC : Char := Char.ofNat 39

/-- The double-quote character. -/
def dqC : Char := Char.ofNat 34

/-! ## Model of the Go standard string functions used by the sources -/

/-- ASCII lowering of one character (`strings.ToLower`, restricted to the
ASCII inputs this development evaluates on). -/
def lowerChar (c : Char) : Char :=
  if 'A' ≤ c ∧ c ≤ 'Z' then Char.ofNat (c.toNat + 32) else c

/-- `strings.ToLower` on a character list. -/
def lowerStr (l : List Char) : List Char := l.map lowerChar

/-- The UTF-8 encoded length in bytes of one character, as Go's
`utf8.RuneLen` computes it for the valid runes a `Char` can hold. -/
def utf8CLen (c : Char) : Nat :=
  if c.toNat < 128 then 1
  else if c.toNat < 2048 then 2
  else if c.toNat < 65536 then 3
  else 4

/-- The byte length `len(s)` of the Go string holding these characters. -/
def utf8Len (l : List Char) : Nat := (l.map utf8CLen).sum

/-- Go's rune-wise `strings.ToLower` on the code points this development
evaluates it on: ASCII letters lower as usual, and U+023A (a Latin capital
whose lowercase U+2C65 is one UTF-8 byte longer) lowers to U+2C65; other
characters appearing in the evaluated inputs are fixed points of
`unicode.ToLower`, so they are left unchanged. -/
def goLowerChar (c : Char) : Char :=
  if c = Char.ofNat 570 then Char.ofNat 11365 else lowerChar c

/-- `strings.Index`: offset of the first occurrence of `sub` in `l`
(`none` models Go's `-1`). -/
def subIndex (sub : List Char) : List Char → Option Nat
  | [] => if sub.isEmpty then some 0 else none
  | a :: t =>
    if sub.isPrefixOf (a :: t) then some 0
    else (subIndex sub t).map (· + 1)

/-- `strings.Contains`. -/
def containsSub (l sub : List Char) : Bool := (subIndex sub l).isSome

/-- Go slice `l[s:e]` (char offsets). -/
def slice (l : List Char) (s e : Nat) : List Char := (l.drop s).take (e - s)

/-- `strings.Trim l cutset`: remove leading and trailing characters that
occur in `cutset`. -/
def trimChars (cutset : List Char) (l : List Char) : List Char :=
  ((l.dropWhile (cutset.contains ·)).reverse.dropWhile (cutset.contains ·)).reverse

/-- Rebuild a `String` from its characters. -/
def strOf (l : List Char) : String := ⟨l⟩

/-- Lookup in a Go map modelled as an association list with unique keys
(first match). -/
def lookupFirst {α : Type} : List (String × α) → String → Option α
  | [], _ => none
  | (k, v) :: t, key => if k = key then some v else lookupFirst t key

/-- Go map assignment `m[k] = v`: replace the entry if the key is present,
append it otherwise. -/
def mapSet {α : Type} (l : List (String × α)) (k : String) (v : α) : List (String × α) :=
  if (lookupFirst l k).isSome then
    l.map (fun kv => if kv.1 = k then (k, v) else kv)
  else l ++ [(k, v)]

/-- Keys of an association list. -/
def keysOf {α : Type} (l : List (String × α)) : List String := l.map Prod.fst

/-- Boolean string-list membership. -/
def hasStr : List String → String → Bool
  | [], _ => false
  | x :: t, s => (x = s) || hasStr t s

/-- Boolean key-uniqueness check. -/
def nodupB : List String → Bool
  | [] => true
  | x :: t => (!(hasStr t x)) && nodupB t

/-- Boolean character-list membership. -/
def hasChar : List Char → Char → Bool
  | [], _ => false
  | x :: t, c => (x = c) || hasChar t c

/-- A name that contains no dot (so dotted paths decompose uniquely). -/
def dotFreeB (s : String) : Bool := !(hasChar s.data '.')

/-! ## Backtracking regular-expression engine

Go's `regexp` package guarantees leftmost matches and, among those, the
submatch a Perl-style backtracking search would find first (alternation
prefers the left branch, quantifiers prefer greed, `?` prefers presence).
The engine below implements exactly that preference order for the regex
combinators the sources use; starred/plussed subexpressions in the source
regexes are always single character classes, which keeps the matcher
structurally recursive. -/

/-- Capture environment: group index paired with the captured characters,
most recent first. -/
abbrev Caps := List (Nat × List Char)

/-- Regular expression syntax used by the embedded patterns. -/
inductive RE where
  | eps : RE
  | chr (c : Char) : RE
  | cls (p : Char → Bool) : RE
  | seq (a b : RE) : RE
  | alt (a b : RE) : RE
  | opt (a : RE) : RE
  | starCls (greedy : Bool) (p : Char → Bool) : RE
  | plusCls (greedy : Bool) (p : Char → Bool) : RE
  | group (i : Nat) (a : RE) : RE
  | lineEnd : RE

/-- Greedy Kleene star over a character class: consume as much as possible,
backtracking one character at a time towards the continuation `k`. -/
def greedyStar (p : Char → Bool) (k : List Char → Caps → Option (List Char × Caps)) :
    List Char → Caps → Option (List Char × Caps)
  | [], caps => k [] caps
  | c :: rest, caps =>
    if p c then
      match greedyStar p k rest caps with
      | some r => some r
      | none => k (c :: rest) caps
    else k (c :: rest) caps

/-- Lazy Kleene star over a character class: try the continuation first,
consuming a character only on failure. -/
def lazyStar (p : Char → Bool) (k : List Char → Caps → Option (List Char × Caps)) :
    List Char → Caps → Option (List Char × Caps)
  | [], caps => k [] caps
  | c :: rest, caps =>
    match k (c :: rest) caps with
    | some r => some r
    | none => if p c then lazyStar p k rest caps else none

/-- CPS backtracking matcher; `k` receives the unconsumed suffix and the
captures recorded so far. -/
def mrun : RE → List Char → Caps → (List Char → Caps → Option (List Char × Caps)) →
    Option (List Char × Caps)
  | .eps, l, caps, k => k l caps
  | .chr c, l, caps, k =>
    match l with
    | x :: r => if x = c then k r caps else none
    | [] => none
  | .cls p, l, caps, k =>
    match l with
    | x :: r => if p x then k r caps else none
    | [] => none
  | .seq a b, l, caps, k => mrun a l caps (fun l2 c2 => mrun b l2 c2 k)
  | .alt a b, l, caps, k =>
    match mrun a l caps k with
    | some r => some r
    | none => mrun b l caps k
  | .opt a, l, caps, k =>
    match mrun a l caps k with
    | some r => some r
    | none => k l caps
  | .starCls true p, l, caps, k => greedyStar p k l caps
  | .starCls false p, l, caps, k => lazyStar p k l caps
  | .plusCls g p, l, caps, k =>
    match l with
    | x :: r =>
      if p x then
        if g then greedyStar p k r caps else lazyStar p k r caps
      else none
    | [] => none
  | .group i a, l, caps, k =>
    mrun a l caps (fun l2 c2 => k l2 ((i, l.take (l.length - l2.length)) :: c2))
  | .lineEnd, l, caps, k =>
    match l with
    | [] => k [] caps
    | _ :: _ => none

/-- Anchored match attempt at the start of `l`. -/
def reMatchAt (re : RE) (l : List Char) : Option (List Char × Caps) :=
  mrun re l [] (fun l2 c2 => some (l2, c2))

/-- Unanchored search: leftmost starting position wins. -/
def reFindAux (re : RE) : List Char → Option (List Char × Caps)
  | [] => reMatchAt re []
  | c :: t =>
    match reMatchAt re (c :: t) with
    | some r => some r
    | none => reFindAux re t

/-- `Regexp.MatchString`. -/
def reMatches (re : RE) (l : List Char) : Bool := (reFindAux re l).isSome

/-- Captures of the leftmost match, if any. -/
def reFindCaps (re : RE) (l : List Char) : Option Caps :=
  (reFindAux re l).map Prod.snd

/-- Content of capture group `i` (Go returns the empty string for a group
that did not take part in the match). -/
def capGet : Caps → Nat → List Char
  | [], _ => []
  | (j, v) :: t, i => if j = i then v else capGet t i

/-- Literal string as a regex. -/
def reStr (s : String) : RE :=
  s.data.foldr (fun c acc => RE.seq (RE.chr c) acc) RE.eps

/-- Sequence of regexes. -/
def reSeq (rs : List RE) : RE := rs.foldr RE.seq RE.eps

/-- Alternation, preferring earlier entries. -/
def reAlts : List RE → RE
  | [] => RE.eps
  | [r] => r
  | r :: t => RE.alt r (reAlts t)

/-- Go `.` (any character but newline). -/
def dotP (c : Char) : Bool := c ≠ '\n'

/-! ## Specialised scanners for the backtick patterns

`codeReg = "[`]([^`]+)[`]"` (a backtick, one or more non-backticks, a
backtick) is used through `FindStringSubmatch`, `FindAllString` and
`FindAllStringIndex`; its successive leftmost non-overlapping matches are
computed directly. -/

/-- Split at the first backtick: `some (before, after)` with the backtick
itself dropped. -/
def splitAtBt : List Char → Option (List Char × List Char)
  | [] => none
  | c :: r =>
    if c = btC then some ([], r)
    else
      match splitAtBt r with
      | none => none
      | some (a, b) => some (c :: a, b)

/-- All matches of `codeReg` as `(start, end)` offset pairs, Go
`FindAllStringIndex` style (`off` is the offset of the head of the list).
The `fuel` argument only makes the recursion structural: every recursive
call strictly shortens the character list (theorem `splitAtBt_len` below),
so fuel equal to the input length can never run out. -/
def codeIdxF (off : Nat) : Nat → List Char → List (Nat × Nat)
  | _, [] => []
  | 0, _ :: _ => []
  | fuel + 1, c :: rest =>
    if c = btC then
      match splitAtBt rest with
      | none => []
      | some (content, rest2) =>
        if content.isEmpty then codeIdxF (off + 1) fuel rest
        else (off, off + content.length + 2) :: codeIdxF (off + content.length + 2) fuel rest2
    else codeIdxF (off + 1) fuel rest

def codeIdx (off : Nat) (l : List Char) : List (Nat × Nat) := codeIdxF off l.length l

/-- `FirstCodeValue` (parser and rule packages): content of the first
backtick-quoted token, or the empty string. -/
def FirstCodeValue (line : String) : String :=
  match codeIdx 0 line.data with
  | [] => ""
  | (s, e) :: _ => strOf (slice line.data (s + 1) (e - 1))

/-- First match of ``blockTypeReg = "[`]([a-zA-Z0-9_]+)[`]"``: the capture
group's `(start, end)` offsets. -/
def wordCharB (c : Char) : Bool :=
  ('a' ≤ c && c ≤ 'z') || ('A' ≤ c && c ≤ 'Z') || ('0' ≤ c && c ≤ '9') || c = '_'

def firstWordCode (off : Nat) : List Char → Option (Nat × Nat)
  | [] => none
  | c :: rest =>
    if c = btC then
      let run := rest.takeWhile wordCharB
      if run.length > 0 ∧ (rest.drop run.length).head? = some btC then
        some (off + 1, off + 1 + run.length)
      else firstWordCode (off + 1) rest
    else firstWordCode (off + 1) rest

/-! ## The regexes of `parser/field_parser.go` (also duplicated in
`markdown/structured_parser.go` and `data`), as engine terms. -/

/-- `ForceNewReg = " ?Changing.*forces? a [^.]*(\.|$)"`. -/
def forceNewRE : RE :=
  reSeq [RE.opt (RE.chr ' '), reStr "Changing", RE.starCls true dotP,
    reStr "force", RE.opt (RE.chr 's'), reStr " a ",
    RE.starCls true (fun c => c ≠ '.'),
    RE.group 1 (RE.alt (RE.chr '.') RE.lineEnd)]

/-- `partForceNewReg = " ?Changing.*forces? a [^.]* created when [^.]*(\.|$)"`. -/
def partForceNewRE : RE :=
  reSeq [RE.opt (RE.chr ' '), reStr "Changing", RE.starCls true dotP,
    reStr "force", RE.opt (RE.chr 's'), reStr " a ",
    RE.starCls true (fun c => c ≠ '.'), reStr " created when ",
    RE.starCls true (fun c => c ≠ '.'),
    RE.group 1 (RE.alt (RE.chr '.') RE.lineEnd)]

/-- `DefaultsReg`: a sentence boundary `[.,?;]`, an optional article, a
"default(s)" stem, filler characters, "to" or "is", then a quoted token
(single-quoted, backtick-quoted or double-quoted) captured as group 1. -/
def defaultsRE : RE :=
  reSeq [RE.cls (fun c => c = '.' || c = ',' || c = '?' || c = ';'),
    RE.opt (reSeq [RE.starCls true (· = ' '), RE.alt (RE.chr 'T') (RE.chr 't'), reStr "he"]),
    RE.starCls true (· = ' '),
    RE.alt (RE.chr 'D') (RE.chr 'd'), reStr "efault", RE.opt (RE.chr 's'),
    RE.plusCls true (fun c => !(c = btC || c = sqC || c = dqC || c = '.')),
    RE.alt (reStr "to") (reStr "is"), RE.chr ' ',
    RE.group 1 (reAlts
      [reSeq [RE.chr sqC, RE.plusCls true (· ≠ sqC), RE.chr sqC],
       reSeq [RE.chr btC, RE.plusCls true (· ≠ btC), RE.chr btC],
       reSeq [RE.chr dqC, RE.plusCls true (· ≠ dqC), RE.chr dqC]]),
    RE.opt (RE.cls (fun c => c = ' ' || c = '.' || c = ','))]

/-- `fieldReg = "^[*-] *[`](.*?)[`] +\- +(\(Required\)|\(Optional\))? ?(.*)"`
(anchored at the start of the line). -/
def fieldRegRE : RE :=
  reSeq [RE.cls (fun c => c = '*' || c = '-'), RE.starCls true (· = ' '),
    RE.chr btC, RE.group 1 (RE.starCls false dotP), RE.chr btC,
    RE.plusCls true (· = ' '), RE.chr '-', RE.plusCls true (· = ' '),
    RE.opt (RE.group 2 (RE.alt (reStr "(Required)") (reStr "(Optional)"))),
    RE.opt (RE.chr ' '), RE.group 3 (RE.starCls true dotP)]

/-- `blockPropRegs[0]`: quantifier word, a quoted token (group 1), the word
"block"/"object", filler, then "below"/"above". -/
def blockPropRE : RE :=
  reSeq [reAlts
      [reSeq [RE.cls (fun c => c = 'O' || c = 'o'), reStr "ne"],
       reSeq [RE.cls (fun c => c = 'E' || c = 'e'), reStr "ach"],
       reSeq [reStr "more",
         RE.opt (reSeq [RE.chr ' ', RE.chr '(', RE.starCls true dotP, RE.chr ')'])],
       reSeq [RE.cls (fun c => c = 'T' || c = 't'), reStr "he"],
       reStr "as", reStr "of",
       reSeq [RE.cls (fun c => c = 'A' || c = 'a'), RE.opt (RE.chr 'n')]],
    RE.chr ' ', RE.cls (fun c => c = sqC || c = dqC || c = btC),
    RE.group 1 (RE.plusCls true (· ≠ ' ')),
    RE.cls (fun c => c = sqC || c = dqC || c = btC), RE.chr ' ',
    RE.alt (reStr "block") (reStr "object"),
    RE.plusCls true (· ≠ '.'),
    RE.alt (reStr "below") (reStr "above")]

/-- `fieldReg.FindStringSubmatch`: groups 1 (name), 2 (marker), 3 (rest). -/
def fieldRegFind (line : String) : Option (String × String × String) :=
  (reMatchAt fieldRegRE line.data).map
    (fun r => (strOf (capGet r.2 1), strOf (capGet r.2 2), strOf (capGet r.2 3)))

/-! ## `internal/tools/document-fmt/types/types.go` -/

/-- `PositionType int` constants. -/
def PosDefault : Nat := 0
def PosExample : Nat := 1
def PosArgs : Nat := 2
def PosAttr : Nat := 3
def PosTimeout : Nat := 4
def PosImport : Nat := 5
def PosOther : Nat := 100

/-- `RequiredType int` bit-flag constants. -/
def RequiredDefault : Nat := 0
def RequiredOptional : Nat := 2
def RequiredRequired : Nat := 4
def RequiredComputed : Nat := 8

namespace Parser

/-! ## `internal/tools/document-fmt/parser/field_parser.go` -/

/-- `parser.ParsedField`: a parsed markdown field line.  `DefaultValue` is
`interface{}` in Go and only ever holds a string or `nil`, so it is an
`Option String` here. -/
structure ParsedField where
  Name : String := ""
  Line : Nat := 0
  Position : Nat := PosDefault
  RequiredStatus : Nat := RequiredDefault
  Required : Bool := false
  Optional : Bool := false
  Content : String := ""
  DefaultValue : Option String := none
  ForceNew : Bool := false
  PossibleValues : List String := []
  GuessEnums : List String := []
  EnumStart : Nat := 0
  EnumEnd : Nat := 0
  ParseErrors : List String := []
  Block : Bool := false
  BlockTypeName : String := ""
deriving DecidableEq, Repr

/-- `getDefaultValue`: group 1 of the first `DefaultsReg` match with the
outer quote characters stripped; the empty string when nothing matches. -/
def getDefaultValue (line : String) : String :=
  match reFindCaps defaultsRE line.data with
  | none => ""
  | some caps =>
    let val := capGet caps 1
    if val.length > 2 then strOf ((val.drop 1).dropLast) else ""

/-- `isForceNew`: the force-new pattern matches and the conditional
"created when" sub-pattern does not. -/
def isForceNew (line : String) : Bool :=
  reMatches forceNewRE line.data && !reMatches partForceNewRE line.data

/-- `guessBlockProperty`: block-shaped description or the literal phrase
"A block to". -/
def guessBlockProperty (line : String) : Bool :=
  reMatches blockPropRE line.data || containsSub line.data "A block to".data

/-- `extractBlockTypeName`: the first `blockTypeReg` match (searched on the
lowercased line, sliced out of the original line), else the field name. -/
def extractBlockTypeName (line : String) (fieldName : String) : String :=
  match firstWordCode 0 (lowerStr line.data) with
  | some (s, e) => strOf (slice line.data s e)
  | none => fieldName

/-- The fixed enum trigger phrases, in the order the code searches them. -/
def sepPhrases : List (List Char) :=
  ["possible value".data, "must be one of".data, "be one of".data,
   "allowed value".data, "valid value".data, "supported value".data,
   "valid option".data, "accepted value".data]

def firstPhrase : List (List Char) → List Char → Option Nat
  | [], _ => none
  | p :: ps, low =>
    match subIndex p low with
    | some i => some i
    | none => firstPhrase ps low

/-- `possibleValueSep` (closure inside `extractPossibleValues`): index of
the first trigger phrase found, trying the phrases in their fixed order on
the lowercased line (`none` models Go's `-1`). -/
def possibleValueSep (line : List Char) : Option Nat :=
  firstPhrase sepPhrases (lowerStr line)

/-- The byte offset Go's `possibleValueSep` actually returns:
`strings.Index` runs on `strings.ToLower(line)` and yields a byte index
into that lowered string.  `unicode.ToLower` maps runes to runes, and the
trigger phrases are ASCII (their byte-level occurrences are always
rune-aligned), so this offset is the UTF-8 length of the lowered line's
prefix before the first char-level phrase occurrence. -/
def goSepIdxBytes (line : List Char) : Option Nat :=
  let low := line.map goLowerChar
  match firstPhrase sepPhrases low with
  | some i => some (utf8Len (low.take i))
  | none => none

/-- The bounds condition of the slice `subStr := line[sepIdx:]` in
`extractPossibleValues`: true when the trigger's byte offset, found on the
lowered line, exceeds the byte length of the original line — on such a
line the Go function panics with a slice-bounds error (the offset also has
to clear the `sepIdx <= 0` guard, which a positive offset does). -/
def enumSliceOutOfRange (line : String) : Bool :=
  match goSepIdxBytes line.data with
  | some i => decide (i > utf8Len line.data)
  | none => false

/-- The enum collection loop of `extractPossibleValues`: walks the
`codeReg` matches of `subStr`, moving the sentence terminator `pointEnd`
past any quoted token it falls inside, stopping at a terminator before the
token; returns the collected values and the final `end` offset of the last
collected token (Go keeps it in `field.EnumEnd`). -/
def enumLoop (subStr : List Char) : List (Nat × Nat) → Nat → List String → Option Nat →
    List String × Option Nat
  | [], _, acc, ee => (acc, ee)
  | (s, e) :: rest, pointEnd, acc, ee =>
    let pointEnd :=
      if pointEnd > s ∧ pointEnd < e then
        match subIndex ['.'] (subStr.drop e) with
        | some np => e + np
        | none => subStr.length
      else pointEnd
    if pointEnd < s then (acc, ee)
    else enumLoop subStr rest pointEnd (acc ++ [strOf (trimChars [btC, sqC, dqC] (slice subStr s e))]) (some e)

/-- `parser.extractPossibleValues`: mirrors the Go function, which takes
the field by pointer; here it returns the collected enum values together
with the updated field. -/
def extractPossibleValues (line : String) (field : ParsedField) : List String × ParsedField :=
  let l := line.data
  match possibleValueSep l with
  | none => ([], field)
  | some sepIdx =>
    if sepIdx = 0 then ([], field)
    else
      let subStr := l.drop sepIdx
      let field := { field with EnumStart := sepIdx }
      let pointEnd :=
        match subIndex ['.'] subStr with
        | some i => i
        | none => subStr.length
      let r := enumLoop subStr (codeIdx 0 subStr) pointEnd [] none
      let field :=
        match r.2 with
        | some e => { field with EnumEnd := sepIdx + e }
        | none => field
      let field :=
        if (possibleValueSep (l.drop (sepIdx + 1))).isSome then
          { field with ParseErrors :=
              field.ParseErrors ++ ["multiple possible value sections detected, skipping enum extraction"] }
        else field
      (r.1, field)

/-- Trim-and-dedup accumulation used by `AddEnum` (seeded with the existing
values) and `SetGuessEnums` (seeded empty). -/
def addEnumList (existing : List String) (values : List String) : List String :=
  values.foldl
    (fun acc v =>
      let t := strOf (trimChars [btC, dqC, sqC] v.data)
      if t ≠ "" ∧ ¬acc.contains t then acc ++ [t] else acc)
    existing

/-- `(*ParsedField).AddEnum`. -/
def ParsedField.addEnum (f : ParsedField) (values : List String) : ParsedField :=
  { f with PossibleValues := addEnumList f.PossibleValues values }

/-- `(*ParsedField).SetGuessEnums`. -/
def ParsedField.setGuessEnums (f : ParsedField) (values : List String) : ParsedField :=
  { f with GuessEnums := addEnumList [] values }

/-- The required/optional switch of `ExtractFieldFromLine` (runs only when
the main regex matched; case-sensitive substring checks on the line). -/
def requiredSwitch (line : String) (f : ParsedField) : ParsedField :=
  if containsSub line.data "(Required)".data then
    { f with RequiredStatus := RequiredRequired, Required := true }
  else if containsSub line.data "(Optional)".data then
    { f with RequiredStatus := RequiredOptional, Optional := true }
  else if containsSub line.data "Required".data then
    { f with RequiredStatus := RequiredRequired, Required := true }
  else if containsSub line.data "Optional".data then
    { f with RequiredStatus := RequiredOptional, Optional := true }
  else f

/-- Block detection at the end of `ExtractFieldFromLine`. -/
def blockDetect (line : String) (f : ParsedField) : ParsedField :=
  if guessBlockProperty line then
    { f with Block := true, BlockTypeName := extractBlockTypeName line f.Name }
  else f

/-- The enum/guess section of `ExtractFieldFromLine` (runs only when the
main regex matched, with `g3 = res[3]`). -/
def enumSection (line : String) (g3 : String) (f : ParsedField) : ParsedField :=
  let r := extractPossibleValues line f
  let f := r.2.addEnum r.1
  let backtickPastStart : Bool :=
    match subIndex [btC] g3.data with
    | some i => decide (i > 0)
    | none => false
  if f.PossibleValues.isEmpty && backtickPastStart then
    f.setGuessEnums ((codeIdx 0 g3.data).map (fun se => strOf (slice g3.data se.1 se.2)))
  else f

/-- Dead-code guard retained from the source: `field.Name` is never empty
at this point, but the Go function re-checks it. -/
def emptyNameGuard (f : ParsedField) : ParsedField :=
  if f.Name = "" then { f with ParseErrors := f.ParseErrors ++ ["field name is empty"] } else f

/-- The opening of `ExtractFieldFromLine`: content/line/position, default
value when present, and the force-new flag. -/
def baseField (line : String) (position : Nat) (lineNumber : Nat) : ParsedField :=
  let field : ParsedField := { Content := line, Line := lineNumber, Position := position }
  let field :=
    if getDefaultValue line ≠ "" then { field with DefaultValue := some (getDefaultValue line) }
    else field
  { field with ForceNew := isForceNew line }

/-- `parser.ExtractFieldFromLine`. -/
def ExtractFieldFromLine (line : String) (position : Nat) (lineNumber : Nat) : ParsedField :=
  let field := baseField line position lineNumber
  match fieldRegFind line with
  | none =>
    -- `len(res) <= 1`: fall back to the first code value; the required and
    -- enum sections are skipped because `len(res)` is 0.
    let field := { field with Name := FirstCodeValue line }
    if field.Name = "" then
      { field with ParseErrors := field.ParseErrors ++ ["no field name found"] }
    else
      blockDetect line (emptyNameGuard field)
  | some (g1, _g2, g3) =>
    if g1 = "" then
      let field := { field with Name := FirstCodeValue line }
      if field.Name = "" then
        { field with ParseErrors := field.ParseErrors ++ ["no field name found"] }
      else
        blockDetect line (enumSection line g3 (requiredSwitch line (emptyNameGuard field)))
    else
      let field := { field with Name := g1 }
      blockDetect line (enumSection line g3 (requiredSwitch line (emptyNameGuard field)))

/-- `parser.ParsedProperty` (the fields beyond `ParsedField` that the
claims exercise; `Nested` holds the names/objects pair of a
`ParsedProperties`). -/
inductive ParsedProperty where
  | mk (field : ParsedField) (Path : String)
       (Nested : Option (List String × List (String × ParsedProperty))) : ParsedProperty

def ParsedProperty.Name : ParsedProperty → String
  | .mk f _ _ => f.Name

def ParsedProperty.fieldOf : ParsedProperty → ParsedField
  | .mk f _ _ => f

/-- `parser.ParsedProperties`. -/
structure ParsedProperties where
  Names : List String := []
  Objects : List (String × ParsedProperty) := []

/-- `parser.(*ParsedProperties).AddProperty`: appends the name and
(map-)assigns the object unconditionally — no duplicate detection. -/
def AddProperty (props : ParsedProperties) (p : ParsedProperty) : ParsedProperties :=
  if p.Name = "" then props
  else { Names := props.Names ++ [p.Name], Objects := mapSet props.Objects p.Name p }

end Parser

namespace Markdown

/-! ## `internal/tools/document-fmt/markdown/structured_parser.go` -/

/-- `(*StructuredParser).extractPossibleValues`: same scan as the parser
package's copy, but when a second trigger phrase occurs later in the line
it returns `nil`, and it records nothing (its field type has no parse-error
list). -/
def extractPossibleValues (line : String) : List String :=
  let l := line.data
  match Parser.possibleValueSep l with
  | none => []
  | some sepIdx =>
    if sepIdx = 0 then []
    else
      let subStr := l.drop sepIdx
      let pointEnd :=
        match subIndex ['.'] subStr with
        | some i => i
        | none => subStr.length
      let r := Parser.enumLoop subStr (codeIdx 0 subStr) pointEnd [] none
      if (Parser.possibleValueSep (l.drop (sepIdx + 1))).isSome then []
      else r.1

end Markdown

namespace Data

/-! ## `internal/tools/document-fmt/data/property.go` -/

/- `data.Property` / `data.Properties` (the fields the validated rules
read).  `Objects map[string]*Property` together with the insertion-ordered
`Names` list is modelled as an insertion-ordered association list with
unique keys. -/
mutual
inductive Property where
  | mk (Name : String) (Required Optional Computed ForceNew Deprecated : Bool)
       (Block : Bool) (BlockTypeName : String) (Line : Nat) (Content : String)
       (Count : Nat) (ParseErrors : List String) (Nested : Option Properties) : Property
inductive Properties where
  | mk (Names : List String) (Objects : List (String × Property)) : Properties
end

def Property.Name : Property → String | .mk n .. => n
def Property.Required : Property → Bool | .mk _ r .. => r
def Property.Optional : Property → Bool | .mk _ _ o .. => o
def Property.Computed : Property → Bool | .mk _ _ _ c .. => c
def Property.ForceNew : Property → Bool | .mk _ _ _ _ f .. => f
def Property.Deprecated : Property → Bool | .mk _ _ _ _ _ d .. => d
def Property.Block : Property → Bool | .mk _ _ _ _ _ _ b .. => b
def Property.BlockTypeName : Property → String | .mk _ _ _ _ _ _ _ btn .. => btn
def Property.Line : Property → Nat | .mk _ _ _ _ _ _ _ _ ln .. => ln
def Property.Content : Property → String | .mk _ _ _ _ _ _ _ _ _ ct .. => ct
def Property.Count : Property → Nat | .mk _ _ _ _ _ _ _ _ _ _ cnt .. => cnt
def Property.ParseErrors : Property → List String | .mk _ _ _ _ _ _ _ _ _ _ _ pe .. => pe
def Property.Nested : Property → Option Properties | .mk _ _ _ _ _ _ _ _ _ _ _ _ ns => ns

def Properties.Names : Properties → List String | .mk ns _ => ns
def Properties.Objects : Properties → List (String × Property) | .mk _ objs => objs

/-- Replace nested contents (models assigning `prop.Nested`). -/
def Property.withNested : Property → Option Properties → Property
  | .mk n r o c f d b btn ln ct cnt pe _, ns => .mk n r o c f d b btn ln ct cnt pe ns

/-- The in-place update `AddProperty` performs on an existing entry:
`existing.Count++` and a "duplicate field in same section" parse error. -/
def Property.bumpDup : Property → Property
  | .mk n r o c f d b btn ln ct cnt pe ns =>
    .mk n r o c f d b btn ln ct (cnt + 1) (pe ++ ["duplicate field in same section"]) ns

/-- `prop.Nested != nil && len(prop.Nested.Objects) > 0`. -/
def nestedNonempty : Option Properties → Bool
  | none => false
  | some ps => !ps.Objects.isEmpty

/-- `data.(*Properties).AddProperty`: a property whose name is already
present is not inserted; the existing entry's `Count` is incremented and a
duplicate parse error recorded on it. -/
def AddProperty (props : Properties) (p : Property) : Properties :=
  if p.Name = "" then props
  else
    match lookupFirst props.Objects p.Name with
    | some _ =>
      Properties.mk props.Names
        (props.Objects.map (fun kv => if kv.1 = p.Name then (kv.1, kv.2.bumpDup) else kv))
    | none =>
      Properties.mk (props.Names ++ [p.Name]) (props.Objects ++ [(p.Name, p)])

/-- One step of the definition-collection loop of `BuildBlockStructure`:
a block definition (block with non-empty nested contents) is registered
under its name, and also under its `BlockTypeName` when different. -/
def collectStep (acc : List (String × Property)) (kv : String × Property) :
    List (String × Property) :=
  if kv.2.Block ∧ nestedNonempty kv.2.Nested then
    let acc := mapSet acc kv.1 kv.2
    if kv.2.BlockTypeName ≠ "" ∧ kv.2.BlockTypeName ≠ kv.1 then
      mapSet acc kv.2.BlockTypeName kv.2
    else acc
  else acc

/-- First pass of `BuildBlockStructure`: collect the block definitions. -/
def collectDefs (objs : List (String × Property)) : List (String × Property) :=
  objs.foldl collectStep []

/-- `fillBlockFields`: link a block-typed field with empty nested contents
to its definition's nested tree, then recurse into the (possibly linked)
nested properties.  The Go function recurses through the pointer structure
and diverges on circular reference chains; `fuel` bounds that recursion
depth and agrees with the source whenever the source terminates.  (The
`parentPath` the source threads through is computed but never read, so it
is omitted.) -/
def fillBlockFields (defs : List (String × Property)) : Nat → Property → Property
  | 0, prop => prop
  | fuel + 1, prop =>
    let prop :=
      if prop.Block ∧ ¬nestedNonempty prop.Nested then
        let blockName := if prop.BlockTypeName = "" then prop.Name else prop.BlockTypeName
        match lookupFirst defs blockName with
        | some blockDef =>
          match blockDef.Nested with
          | some bn => prop.withNested (some bn)
          | none => prop
        | none => prop
      else prop
    match prop.Nested with
    | some (.mk names objs) =>
      prop.withNested (some (Properties.mk names
        (objs.map (fun kv => (kv.1, fillBlockFields defs fuel kv.2)))))
    | none => prop

/-- `data.(*Properties).BuildBlockStructure`: collect definitions, then
link every (transitively) nested block reference. -/
def BuildBlockStructure (fuel : Nat) (props : Properties) : Properties :=
  let defs := collectDefs props.Objects
  Properties.mk props.Names
    (props.Objects.map (fun kv => (kv.1, fillBlockFields defs fuel kv.2)))

/-- The keys under which `collectDefs` registers an entry. -/
def entryKeys (name : String) (p : Property) : List String :=
  if p.Block ∧ nestedNonempty p.Nested then
    name :: (if p.BlockTypeName ≠ "" ∧ p.BlockTypeName ≠ name then [p.BlockTypeName] else [])
  else []

/-- Order-free reading of `collectDefs`: the first entry registering the
key.  When at most one entry registers each key this coincides with
`lookupFirst (collectDefs objs)`. -/
def defFind : List (String × Property) → String → Option Property
  | [], _ => none
  | (n, p) :: t, k => if hasStr (entryKeys n p) k then some p else defFind t k

/-- Boolean disjointness of the definition keys of two entries: no key
registered by `a` is registered by `b`. -/
def ekDisjB (a b : String × Property) : Bool :=
  (entryKeys a.1 a.2).all (fun k => !(hasStr (entryKeys b.1 b.2) k))

end Data

namespace Rule

/-! ## `S006` ("Arguments Exist in Document"), from the rule package -/

open Data

/-- The four distinct diagnostics `S006` formats with `fmt.Errorf`
(`blockSectionMissing` is the argument-less format string on the
`block is missing from documentation` branch). -/
inductive S006Err where
  | missingFromDocs (path : String)
  | shouldBeBlock (path : String) (name : String) (line : Nat)
  | blockSectionMissing
  | undocumentedInSchema (path : String) (line : Nat)
deriving DecidableEq, Repr

/-- The dotted path the rule builds: `name` under the empty parent path,
`parentPath ++ "." ++ name` otherwise. -/
def fullPathOf (parentPath name : String) : String :=
  if parentPath = "" then name else parentPath ++ "." ++ name

/-- `firstCodeValue` (the rule package's own index-based helper, distinct
from the parser's regex-based `FirstCodeValue`): the text between the
first backtick and the next one — empty when either backtick is missing,
and also when the two are adjacent. -/
def firstCodeValue (text : String) : String :=
  match subIndex [btC] text.data with
  | none => ""
  | some start =>
    match subIndex [btC] (text.data.drop (start + 1)) with
    | none => ""
    | some e => strOf (slice text.data (start + 1) (start + 1 + e))

/- A structural size for property trees, used as recursion fuel for the
two directed checks below.  Each recursive step of the Go functions
(advancing the loop, or descending into a nested tree) strictly decreases
this measure, so running the fuel-indexed loops with `listSize` fuel
computes exactly the recursion of the source. -/
mutual

def treeSize : Properties → Nat
  | .mk _ objs => 1 + listSize objs

def listSize : List (String × Property) → Nat
  | [] => 0
  | (_, p) :: rest => 1 + propSize p + listSize rest

def propSize : Property → Nat
  | .mk _ _ _ _ _ _ _ _ _ _ _ _ none => 1
  | .mk _ _ _ _ _ _ _ _ _ _ _ _ (some ps) => 1 + treeSize ps

end

/-- The `for name, property := range schema.Objects` loop of
`S006.checkMissingInDoc` (direction A, schema → documentation), indexed by
recursion fuel: one unit per loop step and per descent into a nested
block, so `listSize` fuel always suffices. -/
def checkMissingInDocListF : Nat → String → String →
    List (String × Property) → Properties → List S006Err
  | 0, _, _, _, _ => []
  | _ + 1, _, _, [], _ => []
  | fuel + 1, resourceType, parentPath, (name, property) :: rest, documentation =>
    (if ¬property.Optional ∧ property.Computed then []
     else if name = "id" then []
     else if property.Deprecated then []
     else
       let fullPath := fullPathOf parentPath name
       match lookupFirst documentation.Objects name with
       | none => [S006Err.missingFromDocs fullPath]
       | some docProperty =>
         if nestedNonempty property.Nested then
           if ¬nestedNonempty docProperty.Nested then
             if ¬docProperty.Block then
               [S006Err.shouldBeBlock fullPath name docProperty.Line]
             else [S006Err.blockSectionMissing]
           else
             match property.Nested, docProperty.Nested with
             | some pn, some dn =>
               checkMissingInDocListF fuel resourceType fullPath pn.Objects dn
             | _, _ => []
         else [])
      ++ checkMissingInDocListF fuel resourceType parentPath rest documentation

/-- `S006.checkMissingInDoc` (direction A, schema → documentation). -/
def checkMissingInDoc (resourceType parentPath : String)
    (schema documentation : Properties) : List S006Err :=
  checkMissingInDocListF (listSize schema.Objects) resourceType parentPath
    schema.Objects documentation

/-- The `for name, docProperty := range documentation.Objects` loop of
`S006.checkMissingInSchema` (direction B, documentation → schema), indexed
by recursion fuel exactly as `checkMissingInDocListF`. -/
def checkMissingInSchemaListF : Nat → String → String →
    List (String × Property) → Properties → List S006Err
  | 0, _, _, _, _ => []
  | _ + 1, _, _, [], _ => []
  | fuel + 1, resourceType, parentPath, (name, docProperty) :: rest, schema =>
    (if name = "id" then []
     else
       let fullPath := fullPathOf parentPath name
       if parentPath = "" ∧ docProperty.Block ∧ nestedNonempty docProperty.Nested then []
       else if containsSub (lowerStr docProperty.Content.data) "deprecated".data then []
       else
         match lookupFirst schema.Objects name with
         | none =>
           match subIndex "not available for".data (lowerStr docProperty.Content.data) with
           | some idx =>
             if idx > 0 ∧
                (let codeValue := firstCodeValue (strOf (docProperty.Content.data.drop idx))
                 codeValue ≠ "" ∧ containsSub fullPath.data codeValue.data) then []
             else [S006Err.undocumentedInSchema fullPath docProperty.Line]
           | none => [S006Err.undocumentedInSchema fullPath docProperty.Line]
         | some schemaProperty =>
           if docProperty.Block then []
           else if nestedNonempty docProperty.Nested then
             match docProperty.Nested, schemaProperty.Nested with
             | some dn, some sn =>
               checkMissingInSchemaListF fuel resourceType fullPath dn.Objects sn
             | _, _ => []
           else [])
      ++ checkMissingInSchemaListF fuel resourceType parentPath rest schema

/-- `S006.checkMissingInSchema` (direction B, documentation → schema). -/
def checkMissingInSchema (resourceType parentPath : String)
    (documentation schema : Properties) : List S006Err :=
  checkMissingInSchemaListF (listSize documentation.Objects) resourceType parentPath
    documentation.Objects schema

/-- The two directed checks as `S006.Run` invokes them (after its
existence/nil guards). -/
def S006Run (resourceName : String) (schemaProperties documentArguments : Properties) :
    List S006Err :=
  checkMissingInDoc resourceName "" schemaProperties documentArguments
    ++ checkMissingInSchema resourceName "" documentArguments schemaProperties

/-- The skip condition of `checkMissingInDoc`, collected into one flag:
computed-only (`!Optional && Computed`), named `id`, or deprecated. -/
def skipB (name : String) (p : Property) : Bool :=
  ((!p.Optional) && p.Computed) || decide (name = "id") || p.Deprecated

/- Well-formedness of a schema tree as the Go code guarantees it (map keys
are unique per level) together with the naming discipline dotted paths
rely on: names are non-empty and dot-free at every level. -/
mutual

def goodTree : Properties → Bool
  | .mk _ objs => nodupB (keysOf objs) && goodList objs

def goodList : List (String × Property) → Bool
  | [] => true
  | (name, p) :: rest =>
    (!(decide (name = ""))) && dotFreeB name && goodProp p && goodList rest

def goodProp : Property → Bool
  | .mk _ _ _ _ _ _ _ _ _ _ _ _ none => true
  | .mk _ _ _ _ _ _ _ _ _ _ _ _ (some ps) => goodTree ps

end

end Rule

/-! ## Concrete instances used by the claim theorems -/

section Instances

open Data Rule Parser

/-- Schema-side property: name plus requirement flags and nested tree. -/
def sProp (name : String) (req opt cmp dep : Bool) (ns : Option Properties) : Property :=
  .mk name req opt cmp false dep false "" 0 "" 0 [] ns

/-- Documentation-side property: name, block flag, line, content, nested. -/
def dProp (name : String) (blk : Bool) (line : Nat) (content : String)
    (ns : Option Properties) : Property :=
  .mk name false false false false false blk "" line content 0 [] ns

/-- C2: schema with required `name` and a required `identity` block
containing `type`. -/
def schemaC2 : Properties :=
  .mk ["name", "identity"]
    [("name", sProp "name" true false false false none),
     ("identity", sProp "identity" true false false false
        (some (.mk ["type"] [("type", sProp "type" true false false false none)])))]

/-- C2: documentation with `name` documented and `identity` documented as a
plain (non-block) entry with no nested content. -/
def docC2 : Properties :=
  .mk ["name", "identity"]
    [("name", dProp "name" false 3 "* `name` - (Required) The name." none),
     ("identity", dProp "identity" false 5 "* `identity` - (Required) The identity." none)]

/-- C1 counterexample: a schema property that is Required (and also
Computed, not Optional), not deprecated, not named `id`. -/
def schemaC1 : Properties := .mk ["x"] [("x", sProp "x" true false true false none)]

/-- C1 witness: a required, non-computed schema property. -/
def schemaPos : Properties := .mk ["x"] [("x", sProp "x" true false false false none)]

/-- C1 counterexample: empty documentation tree. -/
def docEmptyT : Properties := .mk [] []

/-- C8: a block-reference field pointing at block body `bname`. -/
def refProp (fname bname : String) : Property :=
  .mk fname false true false false false true bname 0 "" 0 [] none

/-- C8: a block definition (block with populated nested tree). -/
def blockDefProp (bname : String) (ns : Properties) : Property :=
  .mk bname false false false false false true bname 0 "" 0 [] (some ns)

def innerC8 : Properties := .mk ["type"] [("type", sProp "type" true false false false none)]

/-- C8: block body declared before its two referencing fields. -/
def t1C8 : Properties :=
  .mk ["b", "f1", "f2"]
    [("b", blockDefProp "b" innerC8), ("f1", refProp "f1" "b"), ("f2", refProp "f2" "b")]

/-- C8: the same logical content with the block body declared after the
referencing fields. -/
def t2C8 : Properties :=
  .mk ["f1", "f2", "b"]
    [("f1", refProp "f1" "b"), ("f2", refProp "f2" "b"), ("b", blockDefProp "b" innerC8)]

/-- C7 counterexample: two distinct parsed properties with the same name. -/
def pDup1 : ParsedProperty := .mk { Name := "a", Line := 1 } "" none

def pDup2 : ParsedProperty := .mk { Name := "a", Line := 2 } "" none

/-- C7 witness: a tree already holding `a`, and a second property named `a`. -/
def propsW : Properties := .mk ["a"] [("a", sProp "a" true false false false none)]

def exW : Property := sProp "a" true false false false none

def dupW : Property := sProp "a" false true false false none

/-- C9 failing input: a well-formed field line whose description holds
thirty U+023A characters ahead of the enum trigger phrase. -/
def c9PanicLine : String :=
  "* `x` - (Required) " ++ strOf (List.replicate 30 (Char.ofNat 570)) ++
    " Possible values are `a`."

end Instances

/-! ## Helper lemmas -/

theorem splitAtBt_len : ∀ (l a b : List Char), splitAtBt l = some (a, b) → b.length < l.length := by
  intro l
  induction l with
  | nil => intro a b h; simp [splitAtBt] at h
  | cons c r ih =>
    intro a b h
    by_cases hc : c = btC
    · simp only [splitAtBt, if_pos hc, Option.some.injEq, Prod.mk.injEq] at h
      obtain ⟨rfl, rfl⟩ := h
      simp
    · simp only [splitAtBt, if_neg hc] at h
      cases hr : splitAtBt r with
      | none => rw [hr] at h; simp at h
      | some ab =>
        obtain ⟨a1, b1⟩ := ab
        rw [hr] at h
        simp only [Option.some.injEq, Prod.mk.injEq] at h
        obtain ⟨rfl, rfl⟩ := h
        have := ih a1 b1 hr
        simp
        omega

namespace Parser

@[simp] theorem baseField_Name (line : String) (pos n : Nat) :
    (baseField line pos n).Name = "" := by
  unfold baseField; split <;> rfl

@[simp] theorem baseField_ParseErrors (line : String) (pos n : Nat) :
    (baseField line pos n).ParseErrors = [] := by
  unfold baseField; split <;> rfl

@[simp] theorem emptyNameGuard_Name (f : ParsedField) :
    (emptyNameGuard f).Name = f.Name := by
  unfold emptyNameGuard; split <;> rfl

@[simp] theorem requiredSwitch_Name (line : String) (f : ParsedField) :
    (requiredSwitch line f).Name = f.Name := by
  unfold requiredSwitch
  split <;> try rfl
  split <;> try rfl
  split <;> try rfl
  split <;> rfl

@[simp] theorem blockDetect_Name (line : String) (f : ParsedField) :
    (blockDetect line f).Name = f.Name := by
  unfold blockDetect; split <;> rfl

@[simp] theorem addEnum_Name (f : ParsedField) (vs : List String) :
    (f.addEnum vs).Name = f.Name := rfl

@[simp] theorem setGuessEnums_Name (f : ParsedField) (vs : List String) :
    (f.setGuessEnums vs).Name = f.Name := rfl

@[simp] theorem extractPossibleValues_Name (line : String) (f : ParsedField) :
    (extractPossibleValues line f).2.Name = f.Name := by
  cases h : possibleValueSep line.data with
  | none => simp [extractPossibleValues, h]
  | some i =>
    by_cases hi : i = 0
    · simp [extractPossibleValues, h, hi]
    · simp only [extractPossibleValues, h, if_neg hi]
      split <;> split <;> rfl

@[simp] theorem enumSection_Name (line g3 : String) (f : ParsedField) :
    (enumSection line g3 f).Name = f.Name := by
  unfold enumSection
  split <;> (simp only []; split <;> simp)

end Parser

/-! ## Association-list lemmas (Go map model) -/

theorem lookupFirst_map_update {α : Type} (l : List (String × α)) (k : String) (f : α → α) :
    lookupFirst (l.map (fun kv => if kv.1 = k then (kv.1, f kv.2) else kv)) k =
      (lookupFirst l k).map f := by
  induction l with
  | nil => rfl
  | cons kv t ih =>
    obtain ⟨k2, v⟩ := kv
    by_cases hk : k2 = k
    · subst hk
      have hhead : (if (k2, v).1 = k2 then ((k2, v).1, f (k2, v).2) else (k2, v)) = (k2, f v) := by
        simp
      rw [List.map_cons, hhead]
      simp [lookupFirst]
    · have hhead : (if (k2, v).1 = k then ((k2, v).1, f (k2, v).2) else (k2, v)) = (k2, v) := by
        simp [hk]
      rw [List.map_cons, hhead]
      simp [lookupFirst, hk, ih]

theorem keysOf_map_update {α : Type} (l : List (String × α)) (k : String) (f : α → α) :
    keysOf (l.map (fun kv => if kv.1 = k then (kv.1, f kv.2) else kv)) = keysOf l := by
  induction l with
  | nil => rfl
  | cons kv t ih =>
    obtain ⟨k2, v⟩ := kv
    by_cases hk : k2 = k
    · simp [keysOf, hk, ih]
      simpa [keysOf] using ih
    · simp only [List.map_cons, if_neg hk]
      simpa [keysOf] using ih

theorem lookupFirst_none_hasStr {α : Type} (l : List (String × α)) (k : String) :
    lookupFirst l k = none → hasStr (keysOf l) k = false := by
  induction l with
  | nil => intro _; rfl
  | cons kv t ih =>
    obtain ⟨k2, v⟩ := kv
    intro h
    by_cases hk : k2 = k
    · simp [lookupFirst, hk] at h
    · simp only [lookupFirst, if_neg hk] at h
      have := ih h
      simp only [keysOf] at this ⊢
      simp [hasStr, hk, this]

theorem hasStr_append (l1 l2 : List String) (s : String) :
    hasStr (l1 ++ l2) s = (hasStr l1 s || hasStr l2 s) := by
  induction l1 with
  | nil => simp [hasStr]
  | cons y t ih => simp [hasStr, ih, Bool.or_assoc]

theorem nodupB_append_fresh (l : List String) (x : String) :
    nodupB l = true → hasStr l x = false → nodupB (l ++ [x]) = true := by
  induction l with
  | nil => intro _ _; rfl
  | cons y t ih =>
    intro hnd hx
    simp only [hasStr, Bool.or_eq_false_iff, decide_eq_false_iff_not] at hx
    simp only [nodupB, Bool.and_eq_true, Bool.not_eq_true'] at hnd
    simp only [List.cons_append, nodupB, Bool.and_eq_true, Bool.not_eq_true']
    refine ⟨?_, ih hnd.2 hx.2⟩
    show hasStr (t ++ [x]) y = false
    rw [hasStr_append]
    have hxy : ¬(x = y) := fun he => hx.1 he.symm
    simp [hasStr, hnd.1, hxy]

theorem keysOf_append_single {α : Type} (l : List (String × α)) (k : String) (v : α) :
    keysOf (l ++ [(k, v)]) = keysOf l ++ [k] := by
  simp [keysOf]

/-! ## Claim theorems -/

/-- Claim C2: on the schema/doc pair where the schema holds required field
`name` and required block `identity` (nested `type`), and the docs hold
`name` plus a non-block `identity` with no nested content, running the
validator in both directions yields exactly one diagnostic: a ShouldBeBlock
finding with path `identity` — no finding for `name` and no Direction-B
finding. -/
theorem c2_validator_shouldBeBlock_identity :
    Rule.S006Run "azurerm_example" schemaC2 docC2 =
      [Rule.S006Err.shouldBeBlock "identity" "identity" 5] := by
  decide

/-- Claim C3 (code bug): on a line with two enum trigger phrases, the
parser records the "skipping enum extraction" parse error yet still keeps
the values extracted from the first clause (`PossibleValues = ["A", "B"]`),
contradicting its own error message, the spec, and the sibling copy in
`markdown/structured_parser.go`, which discards the values (but records no
error, since its field type has none). -/
theorem c3_multi_trigger_keeps_values :
    (Parser.ExtractFieldFromLine
        "* `x` - (Optional) Possible values are `A`, `B`. Must be one of `C`, `D`."
        PosArgs 7).PossibleValues = ["A", "B"] ∧
    (Parser.ExtractFieldFromLine
        "* `x` - (Optional) Possible values are `A`, `B`. Must be one of `C`, `D`."
        PosArgs 7).ParseErrors =
      ["multiple possible value sections detected, skipping enum extraction"] ∧
    Markdown.extractPossibleValues
        "* `x` - (Optional) Possible values are `A`, `B`. Must be one of `C`, `D`." = [] := by
  refine ⟨by decide, by decide, by decide⟩

/-- Claim C4 counterexample: on the bare line "Defaults to `false`." the
default-value extraction returns the empty string, not "false" — the
`DefaultsReg` pattern requires a sentence boundary `[.,?;]` before the
"Defaults" stem, and the bare line has none. -/
theorem c4_default_value_counterexample :
    Parser.getDefaultValue "Defaults to `false`." = "" ∧
    Parser.getDefaultValue "Defaults to `false`." ≠ "false" := by
  decide

/-- Claim C4 (amended): when the default clause is preceded by a sentence
boundary — as on any real field line — extraction yields "false" with the
outer quotes stripped; a line whose text the default pattern does not match
yields the empty string, and a line with no default clause produces no
parse error and no default value. -/
theorem c4_default_value :
    Parser.getDefaultValue "* `enabled` - (Optional) Is this enabled? Defaults to `false`." = "false" ∧
    (∀ line : String, reFindCaps defaultsRE line.data = none → Parser.getDefaultValue line = "") ∧
    (Parser.ExtractFieldFromLine "* `enabled` - (Optional) A plain description." PosArgs 1).DefaultValue = none ∧
    (Parser.ExtractFieldFromLine "* `enabled` - (Optional) A plain description." PosArgs 1).ParseErrors = [] := by
  refine ⟨by decide, ?_, by decide, by decide⟩
  intro line h
  unfold Parser.getDefaultValue
  rw [h]

/-- Claim C4 witness: the no-match clause of `c4_default_value` applied to
a concrete line with no default clause. -/
theorem c4_default_value_witness :
    Parser.getDefaultValue "* `tags` - (Optional) A mapping of tags." = "" :=
  c4_default_value.2.1 "* `tags` - (Optional) A mapping of tags." (by decide)

/-- Claim C5: ForceNew detection is true on the unconditional force-new
sentence, false on the conditional "created when" variant, and in general
true exactly when `ForceNewReg` matches and the conditional sub-pattern
`partForceNewReg` does not. -/
theorem c5_force_new :
    Parser.isForceNew "Changing this forces a new resource to be created." = true ∧
    Parser.isForceNew "Changing this forces a new resource to be created when X is set." = false ∧
    (∀ line : String,
      Parser.isForceNew line = (reMatches forceNewRE line.data && !reMatches partForceNewRE line.data)) := by
  refine ⟨by decide, by decide, fun _ => rfl⟩

/-- Claim C6 counterexample: on the bare line the claim quotes, the enum
trigger phrase starts at offset 0, so `extractPossibleValues` returns no
values at all rather than the claimed list. -/
theorem c6_enum_periods_counterexample :
    (Parser.extractPossibleValues "Possible values are `7.1`, `7.2` and `8.0`." {}).1 = [] ∧
    (Parser.extractPossibleValues "Possible values are `7.1`, `7.2` and `8.0`." {}).1 ≠
      ["7.1", "7.2", "8.0"] := by
  decide

/-- Claim C6 (amended): on a field line where the enum clause starts after
the beginning of the line, sentence terminators that fall inside
backtick-quoted tokens are skipped and extraction returns exactly
`["7.1", "7.2", "8.0"]`, in order. -/
theorem c6_enum_periods :
    (Parser.extractPossibleValues
        "* `version` - (Required) The version. Possible values are `7.1`, `7.2` and `8.0`." {}).1 =
      ["7.1", "7.2", "8.0"] ∧
    (Parser.ExtractFieldFromLine
        "* `version` - (Required) The version. Possible values are `7.1`, `7.2` and `8.0`."
        PosArgs 1).PossibleValues = ["7.1", "7.2", "8.0"] := by
  refine ⟨by decide, by decide⟩

/-- Claim C9 (code bug): extraction is not total — the claimed "never
panics" contract fails on the source.  On `c9PanicLine` the main field
regex matches (so `ExtractFieldFromLine` reaches
`extractPossibleValues(line, field)`), and there `sepIdx`, the byte index
of the enum trigger found by `strings.Index` on `strings.ToLower(line)`,
is 110 while the line itself is only 104 bytes long, because the thirty
U+023A characters each lower to the one-byte-longer U+2C65; the slice
`subStr := line[sepIdx:]` is therefore out of range and Go panics instead
of returning a field.  The char-level model (faithful exactly when
lowering preserves byte length) meanwhile binds the name `x` and returns
normally: the crash is a byte-offset overflow, not a parse failure. -/
theorem c9_lower_slice_out_of_range :
    (fieldRegFind c9PanicLine).isSome = true ∧
    Parser.goSepIdxBytes c9PanicLine.data = some 110 ∧
    utf8Len c9PanicLine.data = 104 ∧
    Parser.enumSliceOutOfRange c9PanicLine = true ∧
    (Parser.ExtractFieldFromLine c9PanicLine PosArgs 7).Name = "x" := by
  refine ⟨by decide, by decide, by decide, by decide, by decide⟩

/-- Claim C10 counterexample: "be one of" is an enum trigger phrase and its
earliest occurrence starts at byte offset 0, yet extraction returns the
non-empty value list `["B"]` — the phrase-priority scan finds "possible
value" first, at a later offset, and extracts from there. -/
theorem c10_trigger_at_zero_counterexample :
    "be one of".data ∈ Parser.sepPhrases ∧
    subIndex "be one of".data "be one of `A`. Possible values are `B`.".data = some 0 ∧
    (Parser.extractPossibleValues "be one of `A`. Possible values are `B`." {}).1 = ["B"] ∧
    (Parser.extractPossibleValues "be one of `A`. Possible values are `B`." {}).1 ≠ [] := by
  refine ⟨by decide, by decide, by decide, by decide⟩

/-- Claim C10 (amended): when the phrase-priority scan itself — the first
phrase of the fixed list that occurs, at its first occurrence — yields
offset 0, extraction returns no possible values and leaves the field
untouched; in particular any line starting with "possible value" (the
phrase checked first) extracts nothing. -/
theorem c10_trigger_at_zero :
    ∀ (line : String) (f : Parser.ParsedField),
      Parser.possibleValueSep line.data = some 0 →
      Parser.extractPossibleValues line f = ([], f) := by
  intro line f h
  simp [Parser.extractPossibleValues, h]

/-- Claim C10 witness: the amended statement applied to a line that starts
with a trigger phrase. -/
theorem c10_trigger_at_zero_witness :
    Parser.extractPossibleValues "possible values are `a` and `b`." {} =
      ([], ({} : Parser.ParsedField)) :=
  c10_trigger_at_zero "possible values are `a` and `b`." {} (by decide)

/-- Claim C7 counterexample: `parser.(*ParsedProperties).AddProperty` does
no duplicate detection — adding a second property named `a` appends the
name again (names no longer unique at the level) and replaces the stored
object with the second property (here visible through its `Line`). -/
theorem c7_duplicates_counterexample :
    (Parser.AddProperty (Parser.AddProperty {} pDup1) pDup2).Names = ["a", "a"] ∧
    (lookupFirst (Parser.AddProperty (Parser.AddProperty {} pDup1) pDup2).Objects "a").map
        Parser.ParsedProperty.fieldOf = some { Name := "a", Line := 2 } := by
  refine ⟨rfl, rfl⟩

/-- Claim C7 (amended, for `data.(*Properties).AddProperty`, which the
claim's tree invariant describes): adding a property whose name already
exists at the level leaves `Names` and the key set unchanged (no second
entry), keeps the existing entry with only its duplicate count incremented
and a duplicate parse error appended (no replacement), and key-uniqueness
is preserved by every insertion. -/
theorem c7_data_duplicate_handling :
    (∀ (props : Data.Properties) (p ex : Data.Property),
        p.Name ≠ "" → lookupFirst props.Objects p.Name = some ex →
        (Data.AddProperty props p).Names = props.Names ∧
        keysOf (Data.AddProperty props p).Objects = keysOf props.Objects ∧
        lookupFirst (Data.AddProperty props p).Objects p.Name = some ex.bumpDup ∧
        ex.bumpDup.Count = ex.Count + 1 ∧
        ex.bumpDup.ParseErrors = ex.ParseErrors ++ ["duplicate field in same section"] ∧
        ex.bumpDup.Name = ex.Name ∧ ex.bumpDup.Nested = ex.Nested) ∧
    (∀ (props : Data.Properties) (p : Data.Property),
        nodupB (keysOf props.Objects) = true →
        nodupB (keysOf (Data.AddProperty props p).Objects) = true) := by
  constructor
  · intro props p ex hne hlk
    have hC : lookupFirst (Data.AddProperty props p).Objects p.Name = some ex.bumpDup := by
      unfold Data.AddProperty
      rw [if_neg hne, hlk]
      show lookupFirst
          (props.Objects.map (fun kv => if kv.1 = p.Name then (kv.1, kv.2.bumpDup) else kv))
          p.Name = some ex.bumpDup
      rw [lookupFirst_map_update props.Objects p.Name Data.Property.bumpDup, hlk]
      rfl
    have hB : keysOf (Data.AddProperty props p).Objects = keysOf props.Objects := by
      unfold Data.AddProperty
      rw [if_neg hne, hlk]
      exact keysOf_map_update props.Objects p.Name Data.Property.bumpDup
    have hA : (Data.AddProperty props p).Names = props.Names := by
      unfold Data.AddProperty
      rw [if_neg hne, hlk]
      rfl
    obtain ⟨exn, exr, exo, exc, exf, exd, exb, exbtn, exl, exct, excnt, expe, exns⟩ := ex
    exact ⟨hA, hB, hC, rfl, rfl, rfl, rfl⟩
  · intro props p hnd
    unfold Data.AddProperty
    by_cases hne : p.Name = ""
    · rw [if_pos hne]; exact hnd
    · rw [if_neg hne]
      cases hlk : lookupFirst props.Objects p.Name with
      | some ex =>
        show nodupB (keysOf (props.Objects.map _)) = true
        rw [keysOf_map_update props.Objects p.Name Data.Property.bumpDup]
        exact hnd
      | none =>
        show nodupB (keysOf (props.Objects ++ [(p.Name, p)])) = true
        rw [keysOf_append_single]
        exact nodupB_append_fresh _ _ hnd (lookupFirst_none_hasStr _ _ hlk)

/-- Claim C7 witness: both halves of `c7_data_duplicate_handling` applied
to a concrete tree already containing `a`. -/
theorem c7_data_duplicate_handling_witness :
    (Data.AddProperty propsW dupW).Names = propsW.Names ∧
    nodupB (keysOf (Data.AddProperty propsW dupW).Objects) = true :=
  ⟨(c7_data_duplicate_handling.1 propsW dupW exW (by decide) rfl).1,
   c7_data_duplicate_handling.2 propsW dupW rfl⟩

/-! ## Lemmas towards C8 (order independence of block linking) -/

theorem hasStr_iff_mem (l : List String) (s : String) : hasStr l s = true ↔ s ∈ l := by
  induction l with
  | nil => simp [hasStr]
  | cons x t ih =>
    rw [show hasStr (x :: t) s = (decide (x = s) || hasStr t s) from rfl,
      Bool.or_eq_true, decide_eq_true_eq, ih, List.mem_cons]
    constructor
    · rintro (h | h)
      · exact Or.inl h.symm
      · exact Or.inr h
    · rintro (h | h)
      · exact Or.inl h.symm
      · exact Or.inr h

theorem nodupB_iff_nodup (l : List String) : nodupB l = true ↔ l.Nodup := by
  induction l with
  | nil => simp [nodupB]
  | cons x t ih =>
    rw [show nodupB (x :: t) = ((!hasStr t x) && nodupB t) from rfl,
      Bool.and_eq_true, Bool.not_eq_true', ih, List.nodup_cons, ← hasStr_iff_mem t x]
    constructor
    · intro h
      refine ⟨?_, h.2⟩
      intro hmem
      rw [h.1] at hmem
      cases hmem
    · intro h
      refine ⟨?_, h.2⟩
      cases hx : hasStr t x
      · rfl
      · exact absurd hx h.1

theorem mem_of_lookupFirst {α : Type} (l : List (String × α)) (k : String) (v : α) :
    lookupFirst l k = some v → (k, v) ∈ l := by
  induction l with
  | nil => intro h; cases h
  | cons kv t ih =>
    obtain ⟨k2, v2⟩ := kv
    intro h
    by_cases hk : k2 = k
    · subst hk
      have h2 : some v2 = some v := by simpa [lookupFirst] using h
      injection h2 with h3
      subst h3
      exact List.mem_cons_self _ _
    · simp only [lookupFirst, if_neg hk] at h
      exact List.mem_cons_of_mem _ (ih h)

theorem lookupFirst_eq_none_iff {α : Type} (l : List (String × α)) (k : String) :
    lookupFirst l k = none ↔ ∀ v, (k, v) ∉ l := by
  induction l with
  | nil => simp [lookupFirst]
  | cons kv t ih =>
    obtain ⟨k2, v2⟩ := kv
    by_cases hk : k2 = k
    · subst hk
      constructor
      · intro h
        exfalso
        simp [lookupFirst] at h
      · intro h
        exact absurd (List.mem_cons_self (k2, v2) t) (h v2)
    · simp only [lookupFirst, if_neg hk, ih]
      constructor
      · intro h v
        simp only [List.mem_cons, not_or]
        exact ⟨fun he => hk (congrArg Prod.fst he).symm, h v⟩
      · intro h v
        have := h v
        simp only [List.mem_cons, not_or] at this
        exact this.2

theorem lookupFirst_of_mem_nodup {α : Type} (l : List (String × α)) (k : String) (v : α)
    (hnd : nodupB (keysOf l) = true) (hm : (k, v) ∈ l) : lookupFirst l k = some v := by
  induction l with
  | nil => cases hm
  | cons kv t ih =>
    obtain ⟨k2, v2⟩ := kv
    rw [show keysOf ((k2, v2) :: t) = k2 :: keysOf t from rfl,
      show nodupB (k2 :: keysOf t) = ((!hasStr (keysOf t) k2) && nodupB (keysOf t)) from rfl,
      Bool.and_eq_true, Bool.not_eq_true'] at hnd
    rcases List.mem_cons.mp hm with he | hmt
    · injection he with h1 h2
      subst h1
      subst h2
      simp [lookupFirst]
    · by_cases hk : k2 = k
      · subst hk
        have hmem : k2 ∈ keysOf t := by
          simpa [keysOf] using List.mem_map_of_mem Prod.fst hmt
        rw [← hasStr_iff_mem, hnd.1] at hmem
        cases hmem
      · simp only [lookupFirst, if_neg hk]
        exact ih hnd.2 hmt

theorem lookupFirst_perm {α : Type} (l1 l2 : List (String × α)) (hp : l1.Perm l2)
    (hnd : nodupB (keysOf l1) = true) (k : String) :
    lookupFirst l1 k = lookupFirst l2 k := by
  have hnd2 : nodupB (keysOf l2) = true := by
    rw [nodupB_iff_nodup] at hnd ⊢
    exact ((hp.map Prod.fst).nodup_iff).mp hnd
  cases h1 : lookupFirst l1 k with
  | some v =>
    exact (lookupFirst_of_mem_nodup l2 k v hnd2 (hp.subset (mem_of_lookupFirst l1 k v h1))).symm
  | none =>
    rw [lookupFirst_eq_none_iff] at h1
    symm
    rw [lookupFirst_eq_none_iff]
    intro v hv
    exact h1 v (hp.symm.subset hv)

theorem lookupFirst_map_entry {α : Type} (l : List (String × α)) (f : α → α) (k : String) :
    lookupFirst (l.map (fun kv => (kv.1, f kv.2))) k = (lookupFirst l k).map f := by
  induction l with
  | nil => rfl
  | cons kv t ih =>
    obtain ⟨k2, v⟩ := kv
    by_cases hk : k2 = k
    · subst hk; simp [lookupFirst]
    · simp [lookupFirst, hk, ih]

theorem lookupFirst_append_none {α : Type} (l1 l2 : List (String × α)) (k : String)
    (h : lookupFirst l1 k = none) : lookupFirst (l1 ++ l2) k = lookupFirst l2 k := by
  induction l1 with
  | nil => rfl
  | cons kv t ih =>
    obtain ⟨k2, v⟩ := kv
    by_cases hk : k2 = k
    · simp [lookupFirst, hk] at h
    · simp only [lookupFirst, if_neg hk] at h
      simpa [lookupFirst, hk] using ih h

theorem lookupFirst_replace_isSome {α : Type} (l : List (String × α)) (k : String) (v : α)
    (h : (lookupFirst l k).isSome = true) :
    lookupFirst (l.map (fun kv => if kv.1 = k then (k, v) else kv)) k = some v := by
  induction l with
  | nil => simp [lookupFirst] at h
  | cons kv t ih =>
    obtain ⟨k2, v2⟩ := kv
    by_cases hk : k2 = k
    · subst hk
      have hhead : (if (k2, v2).1 = k2 then (k2, v) else (k2, v2)) = (k2, v) := by simp
      rw [List.map_cons, hhead]
      simp [lookupFirst]
    · have hhead : (if (k2, v2).1 = k then (k, v) else (k2, v2)) = (k2, v2) := by simp [hk]
      rw [List.map_cons, hhead]
      simp only [lookupFirst, if_neg hk] at h ⊢
      exact ih h

theorem lookupFirst_replace_ne {α : Type} (l : List (String × α)) (k : String) (v : α)
    (k2 : String) (hne : k2 ≠ k) :
    lookupFirst (l.map (fun kv => if kv.1 = k then (k, v) else kv)) k2 = lookupFirst l k2 := by
  induction l with
  | nil => rfl
  | cons kv t ih =>
    obtain ⟨k3, v3⟩ := kv
    by_cases hk : k3 = k
    · subst hk
      have hhead : (if (k3, v3).1 = k3 then (k3, v) else (k3, v3)) = (k3, v) := by simp
      rw [List.map_cons, hhead]
      have hne2 : ¬(k3 = k2) := fun he => hne (he ▸ rfl)
      simp only [lookupFirst, if_neg hne2]
      exact ih
    · have hhead : (if (k3, v3).1 = k then (k, v) else (k3, v3)) = (k3, v3) := by simp [hk]
      rw [List.map_cons, hhead]
      by_cases h32 : k3 = k2
      · simp [lookupFirst, h32]
      · simp only [lookupFirst, if_neg h32]
        exact ih

theorem mapSet_lookup_self {α : Type} (l : List (String × α)) (k : String) (v : α) :
    lookupFirst (mapSet l k v) k = some v := by
  unfold mapSet
  by_cases hp : (lookupFirst l k).isSome
  · rw [if_pos hp]
    exact lookupFirst_replace_isSome l k v hp
  · rw [if_neg hp]
    rw [lookupFirst_append_none l _ k (by cases h : lookupFirst l k; rfl; exact absurd (by simp [h]) hp)]
    simp [lookupFirst]

theorem lookupFirst_append_single_ne {α : Type} (l : List (String × α)) (k : String) (v : α)
    (k2 : String) (hne : k2 ≠ k) :
    lookupFirst (l ++ [(k, v)]) k2 = lookupFirst l k2 := by
  induction l with
  | nil =>
    have hne2 : ¬(k = k2) := fun h => hne h.symm
    simp [lookupFirst, hne2]
  | cons kv t ih =>
    obtain ⟨k3, v3⟩ := kv
    by_cases h32 : k3 = k2
    · simp [lookupFirst, h32]
    · simp only [List.cons_append, lookupFirst, if_neg h32]
      exact ih

theorem mapSet_lookup_ne {α : Type} (l : List (String × α)) (k : String) (v : α)
    (k2 : String) (hne : k2 ≠ k) :
    lookupFirst (mapSet l k v) k2 = lookupFirst l k2 := by
  unfold mapSet
  by_cases hp : (lookupFirst l k).isSome
  · rw [if_pos hp]
    exact lookupFirst_replace_ne l k v k2 hne
  · rw [if_neg hp]
    exact lookupFirst_append_single_ne l k v k2 hne

theorem ekDisjB_spec (a b : String × Data.Property) (h : Data.ekDisjB a b = true) :
    ∀ k, hasStr (Data.entryKeys a.1 a.2) k = true → hasStr (Data.entryKeys b.1 b.2) k = false := by
  intro k hk
  unfold Data.ekDisjB at h
  rw [List.all_eq_true] at h
  have := h k ((hasStr_iff_mem _ _).mp hk)
  simpa using this

theorem ekDisjB_symm (a b : String × Data.Property) (h : Data.ekDisjB a b = true) :
    Data.ekDisjB b a = true := by
  unfold Data.ekDisjB
  rw [List.all_eq_true]
  intro k hk
  cases ha : hasStr (Data.entryKeys a.1 a.2) k with
  | false => simp
  | true =>
    have := ekDisjB_spec a b h k ha
    rw [(hasStr_iff_mem _ _).mpr hk] at this
    cases this

theorem collectStep_lookup_hit (acc : List (String × Data.Property))
    (kv : String × Data.Property) (k : String)
    (hk : hasStr (Data.entryKeys kv.1 kv.2) k = true) :
    lookupFirst (Data.collectStep acc kv) k = some kv.2 := by
  unfold Data.collectStep
  unfold Data.entryKeys at hk
  by_cases hdef : kv.2.Block ∧ Data.nestedNonempty kv.2.Nested
  · rw [if_pos hdef]
    rw [if_pos hdef] at hk
    by_cases hbtn : kv.2.BlockTypeName ≠ "" ∧ kv.2.BlockTypeName ≠ kv.1
    · rw [if_pos hbtn] at hk ⊢
      simp only [hasStr, Bool.or_eq_true, decide_eq_true_eq] at hk
      rcases hk with hk1 | hk2 | hf
      · subst hk1
        rw [mapSet_lookup_ne _ _ _ _ (fun he => hbtn.2 he.symm)]
        exact mapSet_lookup_self _ _ _
      · subst hk2
        exact mapSet_lookup_self _ _ _
      · cases hf
    · rw [if_neg hbtn] at hk ⊢
      simp only [hasStr, Bool.or_eq_true, decide_eq_true_eq] at hk
      rcases hk with hk1 | hf
      · subst hk1
        exact mapSet_lookup_self _ _ _
      · cases hf
  · rw [if_neg hdef] at hk
    cases hk

theorem collectStep_lookup_miss (acc : List (String × Data.Property))
    (kv : String × Data.Property) (k : String)
    (hk : hasStr (Data.entryKeys kv.1 kv.2) k = false) :
    lookupFirst (Data.collectStep acc kv) k = lookupFirst acc k := by
  unfold Data.collectStep
  unfold Data.entryKeys at hk
  by_cases hdef : kv.2.Block ∧ Data.nestedNonempty kv.2.Nested
  · rw [if_pos hdef]
    rw [if_pos hdef] at hk
    by_cases hbtn : kv.2.BlockTypeName ≠ "" ∧ kv.2.BlockTypeName ≠ kv.1
    · rw [if_pos hbtn] at hk ⊢
      simp only [hasStr, Bool.or_eq_false_iff, decide_eq_false_iff_not] at hk
      rw [mapSet_lookup_ne _ _ _ _ (fun he => hk.2.1 he.symm)]
      exact mapSet_lookup_ne _ _ _ _ (fun he => hk.1 he.symm)
    · rw [if_neg hbtn] at hk ⊢
      simp only [hasStr, Bool.or_eq_false_iff, decide_eq_false_iff_not] at hk
      exact mapSet_lookup_ne _ _ _ _ (fun he => hk.1 he.symm)
  · rw [if_neg hdef]

theorem foldl_collectStep_untouched (objs : List (String × Data.Property))
    (acc : List (String × Data.Property)) (k : String)
    (h : ∀ e ∈ objs, hasStr (Data.entryKeys e.1 e.2) k = false) :
    lookupFirst (objs.foldl Data.collectStep acc) k = lookupFirst acc k := by
  induction objs generalizing acc with
  | nil => rfl
  | cons e rest ih =>
    simp only [List.foldl_cons]
    rw [ih (Data.collectStep acc e) (fun e2 he2 => h e2 (List.mem_cons_of_mem _ he2))]
    exact collectStep_lookup_miss acc e k (h e (List.mem_cons_self _ _))

theorem foldl_collectStep_found (objs : List (String × Data.Property))
    (acc : List (String × Data.Property)) (k : String)
    (hdisj : List.Pairwise (fun a b => Data.ekDisjB a b = true) objs)
    (hacc : lookupFirst acc k = none) :
    lookupFirst (objs.foldl Data.collectStep acc) k = Data.defFind objs k := by
  induction objs generalizing acc with
  | nil => simpa [Data.defFind] using hacc
  | cons e rest ih =>
    obtain ⟨n, p⟩ := e
    rw [List.pairwise_cons] at hdisj
    simp only [List.foldl_cons]
    cases he : hasStr (Data.entryKeys n p) k with
    | true =>
      rw [show Data.defFind ((n, p) :: rest) k = some p by simp [Data.defFind, he]]
      rw [foldl_collectStep_untouched rest (Data.collectStep acc (n, p)) k
        (fun e2 he2 => ekDisjB_spec (n, p) e2 (hdisj.1 e2 he2) k he)]
      exact collectStep_lookup_hit acc (n, p) k he
    | false =>
      rw [show Data.defFind ((n, p) :: rest) k = Data.defFind rest k by simp [Data.defFind, he]]
      exact ih (Data.collectStep acc (n, p)) hdisj.2
        ((collectStep_lookup_miss acc (n, p) k he).trans hacc)

theorem collectDefs_lookup (objs : List (String × Data.Property)) (k : String)
    (hdisj : List.Pairwise (fun a b => Data.ekDisjB a b = true) objs) :
    lookupFirst (Data.collectDefs objs) k = Data.defFind objs k :=
  foldl_collectStep_found objs [] k hdisj rfl

theorem defFind_some_mem (objs : List (String × Data.Property)) (k : String) (p : Data.Property)
    (h : Data.defFind objs k = some p) :
    ∃ n, (n, p) ∈ objs ∧ hasStr (Data.entryKeys n p) k = true := by
  induction objs with
  | nil => cases h
  | cons e rest ih =>
    obtain ⟨n2, p2⟩ := e
    by_cases he : hasStr (Data.entryKeys n2 p2) k = true
    · simp only [Data.defFind, if_pos he, Option.some.injEq] at h
      subst h
      exact ⟨n2, List.mem_cons_self _ _, he⟩
    · simp only [Data.defFind, if_neg he] at h
      obtain ⟨n3, hn3, hk3⟩ := ih h
      exact ⟨n3, List.mem_cons_of_mem _ hn3, hk3⟩

theorem defFind_none_iff (objs : List (String × Data.Property)) (k : String) :
    Data.defFind objs k = none ↔ ∀ e ∈ objs, hasStr (Data.entryKeys e.1 e.2) k = false := by
  induction objs with
  | nil => simp [Data.defFind]
  | cons e rest ih =>
    obtain ⟨n2, p2⟩ := e
    by_cases he : hasStr (Data.entryKeys n2 p2) k = true
    · simp only [Data.defFind, if_pos he]
      constructor
      · intro h; cases h
      · intro h
        have h2 := h (n2, p2) (List.mem_cons_self _ _)
        rw [he] at h2
        cases h2
    · have he' : hasStr (Data.entryKeys n2 p2) k = false := by
        cases h2 : hasStr (Data.entryKeys n2 p2) k
        · rfl
        · exact absurd h2 he
      simp only [Data.defFind, if_neg he, ih]
      constructor
      · intro h e2 he2
        rcases List.mem_cons.mp he2 with rfl | hm
        · exact he'
        · exact h e2 hm
      · intro h e2 he2
        exact h e2 (List.mem_cons_of_mem _ he2)

theorem defFind_of_mem (objs : List (String × Data.Property)) (k n : String) (p : Data.Property)
    (hdisj : List.Pairwise (fun a b => Data.ekDisjB a b = true) objs)
    (hm : (n, p) ∈ objs) (hk : hasStr (Data.entryKeys n p) k = true) :
    Data.defFind objs k = some p := by
  induction objs with
  | nil => cases hm
  | cons e rest ih =>
    obtain ⟨n2, p2⟩ := e
    rw [List.pairwise_cons] at hdisj
    rcases List.mem_cons.mp hm with he | hmt
    · injection he with h1 h2
      subst h1
      subst h2
      simp [Data.defFind, hk]
    · by_cases hhead : hasStr (Data.entryKeys n2 p2) k = true
      · have := ekDisjB_spec (n2, p2) (n, p) (hdisj.1 (n, p) hmt) k hhead
        rw [this] at hk
        cases hk
      · have hhead' : hasStr (Data.entryKeys n2 p2) k = false := by
          cases h2 : hasStr (Data.entryKeys n2 p2) k
          · rfl
          · exact absurd h2 hhead
        simp only [Data.defFind, if_neg hhead]
        exact ih hdisj.2 hmt

theorem defFind_perm (objs1 objs2 : List (String × Data.Property)) (k : String)
    (hp : objs1.Perm objs2)
    (hdisj : List.Pairwise (fun a b => Data.ekDisjB a b = true) objs1) :
    Data.defFind objs1 k = Data.defFind objs2 k := by
  have hdisj2 : List.Pairwise (fun a b => Data.ekDisjB a b = true) objs2 :=
    (hp.pairwise_iff (fun {a b} hab => ekDisjB_symm a b hab)).mp hdisj
  cases h1 : Data.defFind objs1 k with
  | some p =>
    obtain ⟨n, hn, hk⟩ := defFind_some_mem objs1 k p h1
    exact (defFind_of_mem objs2 k n p hdisj2 (hp.subset hn) hk).symm
  | none =>
    symm
    rw [defFind_none_iff] at h1 ⊢
    intro e he
    exact h1 e (hp.symm.subset he)

theorem fillBlockFields_congr (defs1 defs2 : List (String × Data.Property))
    (h : ∀ k, lookupFirst defs1 k = lookupFirst defs2 k) :
    ∀ (fuel : Nat) (p : Data.Property),
      Data.fillBlockFields defs1 fuel p = Data.fillBlockFields defs2 fuel p := by
  intro fuel
  induction fuel with
  | zero => intro p; rfl
  | succ fuel ih =>
    intro p
    simp only [Data.fillBlockFields, h, ih]

/-- Claim C8: block linking is order independent.  Two trees holding the
same entries (as a permutation, with unique keys per level, and with no two
entries registering the same definition key) produce pointwise equal
final trees after `BuildBlockStructure`: every name looks up to the same
linked property in both. -/
theorem c8_block_linking_order_indep :
    ∀ (fuel : Nat) (t1 t2 : Data.Properties),
      t1.Objects.Perm t2.Objects →
      nodupB (keysOf t1.Objects) = true →
      List.Pairwise (fun a b => Data.ekDisjB a b = true) t1.Objects →
      ∀ name, lookupFirst (Data.BuildBlockStructure fuel t1).Objects name =
        lookupFirst (Data.BuildBlockStructure fuel t2).Objects name := by
  intro fuel t1 t2 hperm hnd hdisj name
  have hdisj2 : List.Pairwise (fun a b => Data.ekDisjB a b = true) t2.Objects :=
    (hperm.pairwise_iff (fun {a b} hab => ekDisjB_symm a b hab)).mp hdisj
  have hdefs : ∀ k, lookupFirst (Data.collectDefs t1.Objects) k =
      lookupFirst (Data.collectDefs t2.Objects) k := by
    intro k
    rw [collectDefs_lookup _ _ hdisj, collectDefs_lookup _ _ hdisj2]
    exact defFind_perm _ _ k hperm hdisj
  show lookupFirst (t1.Objects.map
      (fun kv => (kv.1, Data.fillBlockFields (Data.collectDefs t1.Objects) fuel kv.2))) name =
    lookupFirst (t2.Objects.map
      (fun kv => (kv.1, Data.fillBlockFields (Data.collectDefs t2.Objects) fuel kv.2))) name
  rw [lookupFirst_map_entry, lookupFirst_map_entry,
    lookupFirst_perm t1.Objects t2.Objects hperm hnd name]
  cases lookupFirst t2.Objects name with
  | none => rfl
  | some p => simp [fillBlockFields_congr _ _ hdefs fuel p]

/-! ## Lemmas towards C1 (schema → doc missing-argument diagnostics) -/

theorem sdata_append (a b : String) : (a ++ b).data = a.data ++ b.data := by
  cases a; cases b; rfl

theorem strEq_of_data (a b : String) (h : a.data = b.data) : a = b := by
  cases a; cases b; exact congrArg String.mk h

theorem sappend_assoc (a b c : String) : (a ++ b) ++ c = a ++ (b ++ c) := by
  apply strEq_of_data
  rw [sdata_append, sdata_append, sdata_append, sdata_append, List.append_assoc]

theorem sappend_cancel_left (a b c : String) (h : a ++ b = a ++ c) : b = c := by
  apply strEq_of_data
  have hd := congrArg String.data h
  rw [sdata_append, sdata_append] at hd
  exact List.append_cancel_left hd

theorem fullPathOf_ne_empty (pp n : String) (hn : n ≠ "") : Rule.fullPathOf pp n ≠ "" := by
  unfold Rule.fullPathOf
  split
  · exact hn
  · intro hcon
    have hd := congrArg String.data hcon
    rw [sdata_append, sdata_append] at hd
    simp at hd

theorem fullPathOf_of_ne (pp n : String) (h : ¬(pp = "")) :
    Rule.fullPathOf pp n = pp ++ "." ++ n := by
  unfold Rule.fullPathOf
  rw [if_neg h]

theorem fullPathOf_inj (pp a b : String) (h : Rule.fullPathOf pp a = Rule.fullPathOf pp b) :
    a = b := by
  unfold Rule.fullPathOf at h
  by_cases hpp : pp = ""
  · rw [if_pos hpp, if_pos hpp] at h
    exact h
  · rw [if_neg hpp, if_neg hpp] at h
    exact sappend_cancel_left _ _ _ h

theorem hasChar_iff_mem (l : List Char) (c : Char) : hasChar l c = true ↔ c ∈ l := by
  induction l with
  | nil => simp [hasChar]
  | cons x t ih =>
    rw [show hasChar (x :: t) c = (decide (x = c) || hasChar t c) from rfl,
      Bool.or_eq_true, decide_eq_true_eq, ih, List.mem_cons]
    constructor
    · rintro (h | h)
      · exact Or.inl h.symm
      · exact Or.inr h
    · rintro (h | h)
      · exact Or.inl h.symm
      · exact Or.inr h

theorem dotFreeB_concat_false (a r : String) : dotFreeB (a ++ "." ++ r) = false := by
  unfold dotFreeB
  have hmem : ('.' : Char) ∈ ((a ++ ".") ++ r).data := by
    rw [sdata_append, sdata_append]
    exact List.mem_append_left _ (List.mem_append_right _ (by decide))
  rw [(hasChar_iff_mem _ _).mpr hmem]
  rfl

theorem goodList_cons (n : String) (p : Data.Property) (rest : List (String × Data.Property)) :
    Rule.goodList ((n, p) :: rest) =
      ((!(decide (n = ""))) && dotFreeB n && Rule.goodProp p && Rule.goodList rest) := rfl

theorem goodList_mem (objs : List (String × Data.Property)) (n : String) (p : Data.Property)
    (hg : Rule.goodList objs = true) (hm : (n, p) ∈ objs) :
    n ≠ "" ∧ dotFreeB n = true ∧ Rule.goodProp p = true := by
  induction objs with
  | nil => cases hm
  | cons hd rest ih =>
    obtain ⟨n2, p2⟩ := hd
    rw [goodList_cons, Bool.and_eq_true, Bool.and_eq_true, Bool.and_eq_true] at hg
    rcases List.mem_cons.mp hm with he | hmt
    · injection he with h1 h2
      subst h1
      subst h2
      refine ⟨?_, hg.1.1.2, hg.1.2⟩
      have h3 := hg.1.1.1
      simpa using h3
    · exact ih hg.2 hmt

theorem mem_unique_of_nodup {α : Type} (l : List (String × α)) (k : String) (a b : α)
    (hnd : nodupB (keysOf l) = true) (ha : (k, a) ∈ l) (hb : (k, b) ∈ l) : a = b := by
  have h1 := lookupFirst_of_mem_nodup l k a hnd ha
  have h2 := lookupFirst_of_mem_nodup l k b hnd hb
  rw [h1] at h2
  exact Option.some.inj h2

theorem skipB_false_of (n : String) (p : Data.Property)
    (h1 : p.Optional = true ∨ p.Computed = false) (h2 : p.Deprecated = false)
    (h3 : n ≠ "id") : Rule.skipB n p = false := by
  unfold Rule.skipB
  rw [h2]
  rcases h1 with h | h
  · rw [h]; simp [h3]
  · rw [h]; simp [h3]

theorem listSize_cons (n : String) (p : Data.Property)
    (rest : List (String × Data.Property)) :
    Rule.listSize ((n, p) :: rest) = 1 + Rule.propSize p + Rule.listSize rest := rfl

theorem length_le_listSize (objs : List (String × Data.Property)) :
    objs.length ≤ Rule.listSize objs := by
  induction objs with
  | nil => exact Nat.le_refl 0
  | cons hd rest ih =>
    obtain ⟨n, p⟩ := hd
    rw [listSize_cons, List.length_cons]
    omega

theorem goodTree_eq (ps : Data.Properties) :
    Rule.goodTree ps = (nodupB (keysOf ps.Objects) && Rule.goodList ps.Objects) := by
  cases ps with
  | mk ns objs => rfl

theorem goodProp_nested (p : Data.Property) (ps : Data.Properties)
    (h : p.Nested = some ps) : Rule.goodProp p = Rule.goodTree ps := by
  cases p with
  | mk a r o c f d b btn l ct cnt pe ns =>
    cases ns with
    | none => exact absurd h (by simp [Data.Property.Nested])
    | some ps2 =>
      have hh : ps2 = ps := Option.some.inj (by simpa [Data.Property.Nested] using h)
      subst hh
      rfl

theorem checkListF_zero (rt pp : String) (objs : List (String × Data.Property))
    (doc : Data.Properties) : Rule.checkMissingInDocListF 0 rt pp objs doc = [] := rfl

theorem checkListF_nil (fuel : Nat) (rt pp : String) (doc : Data.Properties) :
    Rule.checkMissingInDocListF (fuel + 1) rt pp [] doc = [] := rfl

theorem checkListF_cons (fuel : Nat) (rt pp n2 : String) (p : Data.Property)
    (rest : List (String × Data.Property)) (doc : Data.Properties) :
    Rule.checkMissingInDocListF (fuel + 1) rt pp ((n2, p) :: rest) doc =
      (if ¬p.Optional ∧ p.Computed then []
       else if n2 = "id" then []
       else if p.Deprecated then []
       else
         match lookupFirst doc.Objects n2 with
         | none => [Rule.S006Err.missingFromDocs (Rule.fullPathOf pp n2)]
         | some docProperty =>
           if Data.nestedNonempty p.Nested then
             if ¬Data.nestedNonempty docProperty.Nested then
               if ¬docProperty.Block then
                 [Rule.S006Err.shouldBeBlock (Rule.fullPathOf pp n2) n2 docProperty.Line]
               else [Rule.S006Err.blockSectionMissing]
             else
               match p.Nested, docProperty.Nested with
               | some pn, some dn =>
                 Rule.checkMissingInDocListF fuel rt (Rule.fullPathOf pp n2) pn.Objects dn
               | _, _ => []
           else [])
        ++ Rule.checkMissingInDocListF fuel rt pp rest doc := rfl

theorem missing_emitted_of (rt pp : String) (objs : List (String × Data.Property))
    (doc : Data.Properties) (n : String) (p : Data.Property) (fuel : Nat)
    (hfuel : objs.length ≤ fuel)
    (hm : (n, p) ∈ objs) (hskip : Rule.skipB n p = false)
    (hdoc : lookupFirst doc.Objects n = none) :
    Rule.S006Err.missingFromDocs (Rule.fullPathOf pp n) ∈
      Rule.checkMissingInDocListF fuel rt pp objs doc := by
  suffices h : ∀ (objs2 : List (String × Data.Property)) (fuel2 : Nat),
      objs2.length ≤ fuel2 → (n, p) ∈ objs2 →
      Rule.S006Err.missingFromDocs (Rule.fullPathOf pp n) ∈
        Rule.checkMissingInDocListF fuel2 rt pp objs2 doc by
    exact h objs fuel hfuel hm
  intro objs2
  induction objs2 with
  | nil =>
    intro fuel2 _ hm2
    cases hm2
  | cons hd rest ih =>
    intro fuel2 hfuel2 hm2
    obtain ⟨n2, p2⟩ := hd
    cases fuel2 with
    | zero => simp at hfuel2
    | succ fuel3 =>
      rw [checkListF_cons]
      rcases List.mem_cons.mp hm2 with he | hmt
      · injection he with h1 h2
        subst h1
        subst h2
        apply List.mem_append_left
        unfold Rule.skipB at hskip
        simp only [Bool.or_eq_false_iff] at hskip
        obtain ⟨⟨hsk1, hsk2⟩, hsk3⟩ := hskip
        have hg1 : ¬(¬(p.Optional = true) ∧ p.Computed = true) := by
          intro hcon
          have hof : p.Optional = false := by
            cases hval : p.Optional
            · rfl
            · exact absurd hval hcon.1
          rw [hof, hcon.2] at hsk1
          simp at hsk1
        have hg2 : ¬(n = "id") := by simpa using hsk2
        have hg3 : ¬(p.Deprecated = true) := by rw [hsk3]; simp
        rw [if_neg hg1, if_neg hg2, if_neg hg3, hdoc]
        exact List.mem_singleton.mpr rfl
      · have hrest : rest.length ≤ fuel3 := by
          simp only [List.length_cons] at hfuel2
          omega
        exact List.mem_append_right _ (ih fuel3 hrest hmt)

theorem missing_shape :
    ∀ (fuelN : Nat) (rt pp : String) (objs : List (String × Data.Property))
      (doc : Data.Properties) (q : String),
      Rule.goodList objs = true →
      Rule.S006Err.missingFromDocs q ∈ Rule.checkMissingInDocListF fuelN rt pp objs doc →
      ∃ (n : String) (p : Data.Property) (rest : Option String),
        (n, p) ∈ objs ∧ Rule.skipB n p = false ∧
        q = (match rest with
             | none => Rule.fullPathOf pp n
             | some r => Rule.fullPathOf pp n ++ "." ++ r) := by
  intro fuelN
  induction fuelN with
  | zero =>
    intro rt pp objs doc q _ hmem
    rw [checkListF_zero] at hmem
    cases hmem
  | succ fuelP IH =>
    intro rt pp objs doc q hgood hmem
    cases objs with
    | nil =>
      rw [checkListF_nil] at hmem
      cases hmem
    | cons hd rest2 =>
      obtain ⟨n2, pfull⟩ := hd
      rw [goodList_cons, Bool.and_eq_true, Bool.and_eq_true, Bool.and_eq_true] at hgood
      obtain ⟨⟨⟨hne0, hdf⟩, hgp⟩, hgrest⟩ := hgood
      have hne2 : n2 ≠ "" := by simpa using hne0
      rw [checkListF_cons] at hmem
      rcases List.mem_append.mp hmem with hm1 | hm2
      · by_cases hskip1 : ¬(pfull.Optional = true) ∧ pfull.Computed = true
        · rw [if_pos hskip1] at hm1; cases hm1
        · rw [if_neg hskip1] at hm1
          by_cases hid : n2 = "id"
          · rw [if_pos hid] at hm1; cases hm1
          · rw [if_neg hid] at hm1
            by_cases hdep : pfull.Deprecated = true
            · rw [if_pos hdep] at hm1; cases hm1
            · rw [if_neg hdep] at hm1
              have hpd : pfull.Deprecated = false := by
                cases hval : pfull.Deprecated
                · rfl
                · exact absurd hval hdep
              have hskipB : Rule.skipB n2 pfull = false := by
                unfold Rule.skipB
                simp only [hpd, Bool.or_eq_false_iff]
                refine ⟨⟨?_, by simpa using hid⟩, by trivial⟩
                cases hpo : pfull.Optional
                · cases hpc : pfull.Computed
                  · rfl
                  · exact absurd ⟨by simp [hpo], hpc⟩ hskip1
                · rfl
              cases hlk : lookupFirst doc.Objects n2 with
              | none =>
                rw [hlk] at hm1
                have hm1c : Rule.S006Err.missingFromDocs q ∈
                    [Rule.S006Err.missingFromDocs (Rule.fullPathOf pp n2)] := hm1
                rw [List.mem_singleton] at hm1c
                injection hm1c with hq
                exact ⟨n2, _, none,
                  List.mem_cons_self _ _, hskipB, hq⟩
              | some docp =>
                rw [hlk] at hm1
                have hm1c : Rule.S006Err.missingFromDocs q ∈
                    (if Data.nestedNonempty pfull.Nested = true then
                       if ¬Data.nestedNonempty docp.Nested = true then
                         if ¬docp.Block = true then
                           [Rule.S006Err.shouldBeBlock (Rule.fullPathOf pp n2) n2 docp.Line]
                         else [Rule.S006Err.blockSectionMissing]
                       else
                         match pfull.Nested, docp.Nested with
                         | some pn, some dn =>
                           Rule.checkMissingInDocListF fuelP rt (Rule.fullPathOf pp n2)
                             pn.Objects dn
                         | _, _ => []
                     else []) := hm1
                by_cases hnn : Data.nestedNonempty pfull.Nested = true
                · rw [if_pos hnn] at hm1c
                  by_cases hdn : ¬(Data.nestedNonempty docp.Nested = true)
                  · rw [if_pos hdn] at hm1c
                    by_cases hblk : ¬(docp.Block = true)
                    · rw [if_pos hblk] at hm1c
                      simp at hm1c
                    · rw [if_neg hblk] at hm1c
                      simp at hm1c
                  · rw [if_neg hdn] at hm1c
                    cases hpn : pfull.Nested with
                    | none =>
                      rw [hpn] at hnn
                      simp [Data.nestedNonempty] at hnn
                    | some pnp =>
                      cases hdn2 : docp.Nested with
                      | none =>
                        rw [hdn2] at hdn
                        simp [Data.nestedNonempty] at hdn
                      | some dn =>
                        rw [hpn, hdn2] at hm1c
                        have hm1b : Rule.S006Err.missingFromDocs q ∈
                            Rule.checkMissingInDocListF fuelP rt (Rule.fullPathOf pp n2)
                              pnp.Objects dn := hm1c
                        have hgood3 : Rule.goodList pnp.Objects = true := by
                          have hthis := hgp
                          rw [goodProp_nested pfull pnp hpn, goodTree_eq,
                            Bool.and_eq_true] at hthis
                          exact hthis.2
                        obtain ⟨n3, p3, rest3, hmem3, hskip3, hq3⟩ :=
                          IH rt (Rule.fullPathOf pp n2) pnp.Objects dn q hgood3 hm1b
                        have hppne : Rule.fullPathOf pp n2 ≠ "" := fullPathOf_ne_empty pp n2 hne2
                        cases rest3 with
                        | none =>
                          refine ⟨n2, _, some n3, List.mem_cons_self _ _, hskipB, ?_⟩
                          rw [hq3]
                          exact fullPathOf_of_ne _ _ hppne
                        | some r3 =>
                          refine ⟨n2, _, some (n3 ++ "." ++ r3), List.mem_cons_self _ _, hskipB, ?_⟩
                          show q = Rule.fullPathOf pp n2 ++ "." ++ (n3 ++ "." ++ r3)
                          have hq4 : q =
                              Rule.fullPathOf (Rule.fullPathOf pp n2) n3 ++ "." ++ r3 := hq3
                          rw [hq4, fullPathOf_of_ne _ _ hppne]
                          apply strEq_of_data
                          simp only [sdata_append, List.append_assoc]
                · rw [if_neg hnn] at hm1c
                  cases hm1c
      · obtain ⟨n3, p3, rest3, hmem3, hskip3, hq3⟩ :=
          IH rt pp rest2 doc q hgrest hm2
        exact ⟨n3, p3, rest3, List.mem_cons_of_mem _ hmem3, hskip3, hq3⟩

/-- Claim C1 (amended): Direction A of the validator.  (Positive half) for
every schema property that is Optional or not Computed — the code's
user-settable test — not deprecated and not named `id`, a missing matching
name in the documentation tree at that level yields a MissingFromDocs
diagnostic carrying the property's dotted path.  (Negative half) on a
well-formed schema tree (unique, non-empty, dot-free names), a property
that is computed-only, deprecated, or named `id` never produces such a
diagnostic for its dotted path.  The claim's original quantification
"Required or Optional" fails on the code: a Required property that is also
Computed (and not Optional) is skipped (see the counterexample). -/
theorem c1_missing_from_docs :
    (∀ (rt pp : String) (schema doc : Data.Properties) (name : String) (p : Data.Property),
      (name, p) ∈ schema.Objects →
      (p.Optional = true ∨ p.Computed = false) →
      p.Deprecated = false → name ≠ "id" →
      lookupFirst doc.Objects name = none →
      Rule.S006Err.missingFromDocs (Rule.fullPathOf pp name) ∈
        Rule.checkMissingInDoc rt pp schema doc) ∧
    (∀ (rt pp : String) (schema doc : Data.Properties) (name : String) (p : Data.Property),
      Rule.goodTree schema = true →
      (name, p) ∈ schema.Objects →
      Rule.skipB name p = true →
      Rule.S006Err.missingFromDocs (Rule.fullPathOf pp name) ∉
        Rule.checkMissingInDoc rt pp schema doc) := by
  constructor
  · intro rt pp schema doc name p hm hset hdep hid hdoc
    obtain ⟨ns, objs⟩ := schema
    exact missing_emitted_of rt pp objs doc name p (Rule.listSize objs)
      (length_le_listSize objs) hm (skipB_false_of name p hset hdep hid) hdoc
  · intro rt pp schema doc name p hgood hm hskip hcon
    obtain ⟨ns, objs⟩ := schema
    rw [show Rule.goodTree (Data.Properties.mk ns objs) =
      (nodupB (keysOf objs) && Rule.goodList objs) from rfl, Bool.and_eq_true] at hgood
    obtain ⟨n2, p2, rest3, hmem2, hskip2, hq⟩ :=
      missing_shape (Rule.listSize objs) rt pp objs doc (Rule.fullPathOf pp name)
        hgood.2 hcon
    obtain ⟨hne2, hdf2, _⟩ := goodList_mem objs name p hgood.2 hm
    cases rest3 with
    | none =>
      have hnm : name = n2 := fullPathOf_inj pp name n2 hq
      subst hnm
      have := mem_unique_of_nodup objs name p p2 hgood.1 hm hmem2
      rw [← this] at hskip2
      rw [hskip] at hskip2
      cases hskip2
    | some r3 =>
      have hq2 : Rule.fullPathOf pp name = Rule.fullPathOf pp n2 ++ "." ++ r3 := hq
      by_cases hpp : pp = ""
      · rw [show Rule.fullPathOf pp name = name from by unfold Rule.fullPathOf; rw [if_pos hpp],
          show Rule.fullPathOf pp n2 = n2 from by unfold Rule.fullPathOf; rw [if_pos hpp]] at hq2
        rw [show dotFreeB name = dotFreeB name from rfl, hq2, dotFreeB_concat_false] at hdf2
        cases hdf2
      · rw [fullPathOf_of_ne pp name hpp, fullPathOf_of_ne pp n2 hpp] at hq2
        have hq3 : name = n2 ++ "." ++ r3 := by
          have hd := congrArg String.data hq2
          simp only [sdata_append, List.append_assoc] at hd
          have h1 := List.append_cancel_left hd
          have h2 := List.append_cancel_left h1
          apply strEq_of_data
          simp only [sdata_append, List.append_assoc]
          exact h2
        rw [hq3, dotFreeB_concat_false] at hdf2
        cases hdf2

/-- Claim C1 counterexample: a schema property that is Required but also
Computed (and not Optional), not deprecated, not named `id`, and missing
from the documentation tree produces no MissingFromDocs diagnostic — the
code's skip test is `!Optional && Computed`, not "not (Required or
Optional)". -/
theorem c1_missing_from_docs_counterexample :
    (lookupFirst schemaC1.Objects "x").map Data.Property.Required = some true ∧
    (lookupFirst schemaC1.Objects "x").map Data.Property.Deprecated = some false ∧
    lookupFirst docEmptyT.Objects "x" = none ∧
    Rule.S006Err.missingFromDocs "x" ∉ Rule.checkMissingInDoc "r" "" schemaC1 docEmptyT := by
  refine ⟨rfl, rfl, rfl, ?_⟩
  intro h
  rw [show Rule.checkMissingInDoc "r" "" schemaC1 docEmptyT = [] from rfl] at h
  cases h

/-- Claim C1 witness: both halves of `c1_missing_from_docs` at concrete
trees — the required non-computed property `x` of `schemaPos` is reported
missing, and the required-but-computed property `x` of `schemaC1` is not. -/
theorem c1_missing_from_docs_witness :
    Rule.S006Err.missingFromDocs (Rule.fullPathOf "" "x") ∈
      Rule.checkMissingInDoc "r" "" schemaPos docEmptyT ∧
    Rule.S006Err.missingFromDocs (Rule.fullPathOf "" "x") ∉
      Rule.checkMissingInDoc "r" "" schemaC1 docEmptyT :=
  ⟨c1_missing_from_docs.1 "r" "" schemaPos docEmptyT "x"
      (sProp "x" true false false false none)
      (List.mem_cons_self _ _) (Or.inr rfl) rfl (by decide) rfl,
   c1_missing_from_docs.2 "r" "" schemaC1 docEmptyT "x"
      (sProp "x" true false true false none)
      rfl (List.mem_cons_self _ _) rfl⟩

/-- Claim C8 witness: the definition-before-references tree `t1C8` and the
references-before-definition tree `t2C8` link identically; in particular
both referencing fields end up carrying the definition's nested tree. -/
theorem c8_block_linking_witness :
    (lookupFirst (Data.BuildBlockStructure 3 t1C8).Objects "f1" =
      lookupFirst (Data.BuildBlockStructure 3 t2C8).Objects "f1") ∧
    (lookupFirst (Data.BuildBlockStructure 3 t1C8).Objects "f2" =
      lookupFirst (Data.BuildBlockStructure 3 t2C8).Objects "f2") ∧
    (lookupFirst (Data.BuildBlockStructure 3 t1C8).Objects "f1").map Data.Property.Nested =
      some (some innerC8) ∧
    (lookupFirst (Data.BuildBlockStructure 3 t2C8).Objects "f2").map Data.Property.Nested =
      some (some innerC8) :=
  ⟨c8_block_linking_order_indep 3 t1C8 t2C8 (List.perm_append_singleton _ _).symm
      rfl (by decide) "f1",
   c8_block_linking_order_indep 3 t1C8 t2C8 (List.perm_append_singleton _ _).symm
      rfl (by decide) "f2",
   rfl, rfl⟩

end DocFmt
